import Mathlib

/-!
Verification development for the lazyrss feed reader.

Shallow embedding of the group-tree building, display flattening, selection
reconciliation, async-result routing and config-tree editing code of
`src/app.rs`, `src/config.rs` and `src/db.rs`.

Modelling conventions:
* Rust `String` is modelled as `List Char` (`RStr`), the sequence of characters;
  Rust's byte-lexicographic order on UTF-8 strings coincides with the
  codepoint-lexicographic order modelled by `pathLe`.
* Rust `Vec<T>` is `List T`; `HashSet<String>` is a `List RStr` used with set
  semantics (membership tests only, duplicates avoided at insertion).
* `HashMap<String, Vec<Feed>>` grouping is modelled by `pathKeys` (the distinct
  keys) and `feedsForPath` (the per-key bucket, in insertion order); the
  arbitrary hash-iteration order of keys is immaterial because the code sorts
  the collected paths before use.
* `i64` is `Int`; `u32`/`u8`/`usize` counters are `Nat` (the program never
  reaches the overflow ranges; overflow would panic, not wrap, in the source).
* Timestamps (`DateTime<Utc>`) are opaque `Nat` values.
-/

set_option maxHeartbeats 1000000

abbrev RStr := List Char

/-- The group-path separator `" > "` (src/app.rs uses `split(" > ")` and
`join(" > ")` throughout). -/
def pathSep : RStr := [' ', '>', ' ']

/-- db::Feed (src/db.rs): a feed row enriched with its unread article count. -/
structure Feed where
  id : Int
  group_title : RStr
  title : RStr
  url : RStr
  site_url : Option RStr
  last_fetched : Option Nat
  unread_count : Nat
deriving DecidableEq, Repr

/-- db::Article (src/db.rs): a single article row. -/
structure Article where
  id : Int
  feed_id : Int
  guid : RStr
  title : RStr
  url : Option RStr
  author : Option RStr
  summary : Option RStr
  content : Option RStr
  published : Option Nat
  is_read : Bool
  is_starred : Bool
deriving DecidableEq, Repr

/-- GroupNode (src/app.rs): a node in the group tree for hierarchical display. -/
inductive GroupNode where
  | mk (title : RStr) (full_path : RStr) (unread_count : Nat)
      (feeds : List Feed) (children : List GroupNode)
deriving Repr

def GroupNode.title : GroupNode → RStr
  | .mk t _ _ _ _ => t

def GroupNode.full_path : GroupNode → RStr
  | .mk _ p _ _ _ => p

def GroupNode.unread_count : GroupNode → Nat
  | .mk _ _ u _ _ => u

def GroupNode.feeds : GroupNode → List Feed
  | .mk _ _ _ fs _ => fs

def GroupNode.children : GroupNode → List GroupNode
  | .mk _ _ _ _ cs => cs

mutual
/-- GroupNode::calculate_unread_count (src/app.rs): direct feeds' unread counts
plus all children's, recursively.  `sumCalc` renders the `children.iter().map(..).sum()`
of the source as a mutual recursion over the child list. -/
def GroupNode.calculate_unread_count : GroupNode → Nat
  | .mk _ _ _ feeds children =>
      (feeds.map Feed.unread_count).sum + GroupNode.sumCalc children
def GroupNode.sumCalc : List GroupNode → Nat
  | [] => 0
  | n :: ns => GroupNode.calculate_unread_count n + GroupNode.sumCalc ns
end

mutual
/-- GroupNode::update_unread_counts (src/app.rs): store the calculated count on
this node, then recurse into its children. -/
def GroupNode.update_unread_counts : GroupNode → GroupNode
  | .mk t p u feeds children =>
      .mk t p (GroupNode.calculate_unread_count (.mk t p u feeds children)) feeds
        (GroupNode.updateList children)
def GroupNode.updateList : List GroupNode → List GroupNode
  | [] => []
  | n :: ns => GroupNode.update_unread_counts n :: GroupNode.updateList ns
end

/-- Helper for Rust `str::split`: find the leftmost occurrence of `sep`,
returning the text before it and the remainder after it. -/
def splitOnceAux (sep : RStr) : RStr → Option (RStr × RStr)
  | [] => none
  | c :: cs =>
      if sep.isPrefixOf (c :: cs) then some ([], (c :: cs).drop sep.length)
      else
        match splitOnceAux sep cs with
        | some (b, a) => some (c :: b, a)
        | none => none

theorem splitOnceAux_length {s b a : RStr} (h : splitOnceAux pathSep s = some (b, a)) :
    a.length < s.length := by
  induction s generalizing b a with
  | nil => simp [splitOnceAux] at h
  | cons c cs ih =>
      rw [splitOnceAux] at h
      by_cases hp : pathSep.isPrefixOf (c :: cs)
      · rw [if_pos hp] at h
        simp only [Option.some.injEq, Prod.mk.injEq] at h
        obtain ⟨rfl, rfl⟩ := h
        have h3 : pathSep.length = 3 := rfl
        simp only [List.length_drop, List.length_cons, h3]
        omega
      · rw [if_neg hp] at h
        cases hrec : splitOnceAux pathSep cs with
        | none => simp [hrec] at h
        | some p =>
            obtain ⟨b', a'⟩ := p
            simp only [hrec, Option.some.injEq, Prod.mk.injEq] at h
            obtain ⟨rfl, rfl⟩ := h
            have := ih hrec
            simp only [List.length_cons]
            omega

/-- Fuel-indexed worker for `splitPath`; the fuel only needs to exceed the
number of separator occurrences, and `s.length` always does. -/
def splitPathAux : Nat → RStr → List RStr
  | 0, s => [s]
  | fuel + 1, s =>
      match splitOnceAux pathSep s with
      | none => [s]
      | some (b, a) => b :: splitPathAux fuel a

/-- Rust `path.split(" > ").collect::<Vec<_>>()` (src/app.rs): split a path
string on the `" > "` separator into its components.  The remainder after each
separator is strictly shorter, so `s.length` fuel suffices; structural
recursion on the fuel keeps the definition kernel-computable. -/
def splitPath (s : RStr) : List RStr :=
  splitPathAux s.length s

theorem splitPathAux_fuel (f₁ : Nat) : ∀ (f₂ : Nat) (s : RStr), s.length ≤ f₁ →
    s.length ≤ f₂ → splitPathAux f₁ s = splitPathAux f₂ s := by
  induction f₁ using Nat.strong_induction_on with
  | _ f₁ ih =>
    intro f₂ s h₁ h₂
    cases s with
    | nil => cases f₁ <;> cases f₂ <;> simp [splitPathAux, splitOnceAux]
    | cons c cs =>
        simp only [List.length_cons] at h₁ h₂
        cases f₁ with
        | zero => omega
        | succ g₁ =>
            cases f₂ with
            | zero => omega
            | succ g₂ =>
                rw [splitPathAux, splitPathAux]
                cases ho : splitOnceAux pathSep (c :: cs) with
                | none => rfl
                | some p =>
                    obtain ⟨b, a⟩ := p
                    have hlt := splitOnceAux_length ho
                    simp only [List.length_cons] at hlt
                    show b :: splitPathAux g₁ a = b :: splitPathAux g₂ a
                    rw [ih g₁ (by omega) g₂ a (by omega) (by omega)]

/-- Unfolding rule matching the Rust recursion of `split` directly. -/
theorem splitPath_eq (s : RStr) :
    splitPath s =
      match splitOnceAux pathSep s with
      | none => [s]
      | some (b, a) => b :: splitPath a := by
  cases ho : splitOnceAux pathSep s with
  | none =>
      cases s with
      | nil => rfl
      | cons c cs => rw [splitPath, List.length_cons, splitPathAux, ho]
  | some p =>
      obtain ⟨b, a⟩ := p
      have hlt := splitOnceAux_length ho
      cases s with
      | nil => simp [splitOnceAux] at ho
      | cons c cs =>
          simp only [List.length_cons] at hlt
          show splitPath (c :: cs) = b :: splitPath a
          rw [splitPath, splitPath, List.length_cons]
          simp only [splitPathAux, ho]
          exact congrArg (b :: ·) (splitPathAux_fuel cs.length a.length a (by omega) (le_refl _))

/-- Rust `String` ordering (byte-lexicographic, modelled on codepoints), as the
Bool comparator used to model `Vec::sort` on path strings. -/
def pathLe : RStr → RStr → Bool
  | [], _ => true
  | _ :: _, [] => false
  | x :: xs, y :: ys => if x < y then true else if y < x then false else pathLe xs ys

/-- Rust `Iterator::position`: index of the first element satisfying `p`. -/
def listPosition {α : Type} (p : α → Bool) : List α → Option Nat
  | [] => none
  | a :: as => if p a then some 0 else (listPosition p as).map (· + 1)

theorem listPosition_eq_some {α : Type} {p : α → Bool} :
    ∀ {l : List α} {i : Nat}, listPosition p l = some i →
      ∃ a, l.get? i = some a ∧ p a = true := by
  intro l
  induction l with
  | nil => intro i h; simp [listPosition] at h
  | cons a as ih =>
      intro i h
      rw [listPosition] at h
      by_cases hp : p a
      · rw [if_pos hp] at h
        obtain rfl : (0 : Nat) = i := by simpa using h
        exact ⟨a, rfl, hp⟩
      · rw [if_neg hp] at h
        cases hrec : listPosition p as with
        | none => rw [hrec] at h; simp at h
        | some j =>
            rw [hrec] at h
            obtain rfl : j + 1 = i := by simpa using h
            obtain ⟨b, hb, hpb⟩ := ih hrec
            exact ⟨b, by simpa using hb, hpb⟩

theorem listPosition_eq_none {α : Type} {p : α → Bool} :
    ∀ {l : List α}, listPosition p l = none ↔ ∀ a ∈ l, p a = false := by
  intro l
  induction l with
  | nil => simp [listPosition]
  | cons a as ih =>
      rw [listPosition]
      by_cases hp : p a
      · rw [if_pos hp]
        simp [hp]
      · rw [if_neg hp]
        constructor
        · intro h b hb
          rcases List.mem_cons.mp hb with rfl | hb'
          · simpa using hp
          · have hnone : listPosition p as = none := by
              cases hrec : listPosition p as with
              | none => rfl
              | some j => rw [hrec] at h; simp at h
            exact ih.mp hnone b hb'
        · intro h
          have hnone : listPosition p as = none :=
            ih.mpr (fun b hb => h b (List.mem_cons_of_mem _ hb))
          rw [hnone]
          rfl

theorem listPosition_of_mem {α : Type} {p : α → Bool} {l : List α}
    (h : ∃ a ∈ l, p a = true) : ∃ i, listPosition p l = some i := by
  cases hpos : listPosition p l with
  | some i => exact ⟨i, rfl⟩
  | none =>
      obtain ⟨a, ha, hpa⟩ := h
      rw [listPosition_eq_none.mp hpos a ha] at hpa
      cases hpa

/-- Keys of the `path_to_feeds` map built by build_group_tree (src/app.rs):
the distinct non-empty group titles of the feeds, in first-occurrence order
(the order is immaterial: the paths are sorted afterwards). -/
def pathKeys (feeds : List Feed) : List RStr :=
  feeds.foldl
    (fun acc f =>
      if f.group_title = [] then acc
      else if f.group_title ∈ acc then acc else acc ++ [f.group_title]) []

/-- Bucket of the `path_to_feeds` map for one path: the feeds with that
(non-empty) group title, in input order; `unwrap_or_default` yields `[]` for a
path that is not a key (in particular for the empty path, which is never a key). -/
def feedsForPath (feeds : List Feed) (p : RStr) : List Feed :=
  if p = [] then [] else feeds.filter (fun f => f.group_title = p)

/-- The loop in build_group_tree that appends each empty-group path not already
present in `all_paths` (src/app.rs). -/
def addEmptyGroups (all_paths : List RStr) (empty_groups : List RStr) : List RStr :=
  empty_groups.foldl (fun acc g => if g ∈ acc then acc else acc ++ [g]) all_paths

/-- Worker for `insert_into_tree`: the Rust recursion increases `depth` until
it reaches `components.len()`, so we recurse structurally on the remaining
count `rem = components.length - depth`, keeping `depth` for indexing and
path joining exactly as the source does. -/
def insertAux (components : List RStr) (full_path : RStr) (feeds : List Feed) :
    Nat → List GroupNode → Nat → List GroupNode
  | 0, nodes, _ => nodes
  | rem + 1, nodes, depth =>
      let current_title := components.getD depth []
      let is_last := depth = components.length - 1
      match listPosition (fun n => n.title == current_title) nodes with
      | some pos =>
          if is_last then
            List.modify
              (fun n => .mk n.title n.full_path n.unread_count (n.feeds ++ feeds) n.children)
              pos nodes
          else
            List.modify
              (fun n => .mk n.title n.full_path n.unread_count n.feeds
                (insertAux components full_path feeds rem n.children (depth + 1)))
              pos nodes
      | none =>
          if is_last then
            nodes ++ [.mk current_title full_path 0 feeds []]
          else
            let ancestor_path := List.intercalate pathSep (components.take (depth + 1))
            nodes ++ [.mk current_title ancestor_path 0 []
              (insertAux components full_path feeds rem [] (depth + 1))]

/-- insert_into_tree (src/app.rs): insert a path (as components) into the node
forest, creating nodes as needed, attaching `feeds` at the terminal component. -/
def insert_into_tree (nodes : List GroupNode) (components : List RStr) (full_path : RStr)
    (feeds : List Feed) (depth : Nat) : List GroupNode :=
  insertAux components full_path feeds (components.length - depth) nodes depth

/-- Unfolding rule for `insert_into_tree` matching the Rust body verbatim
(early return at `depth >= components.len()`, recursive calls at `depth + 1`). -/
theorem insert_into_tree_eq (nodes : List GroupNode) (components : List RStr) (full_path : RStr)
    (feeds : List Feed) (depth : Nat) :
    insert_into_tree nodes components full_path feeds depth =
      if depth ≥ components.length then nodes
      else
        let current_title := components.getD depth []
        let is_last := depth = components.length - 1
        match listPosition (fun n => n.title == current_title) nodes with
        | some pos =>
            if is_last then
              List.modify
                (fun n => .mk n.title n.full_path n.unread_count (n.feeds ++ feeds) n.children)
                pos nodes
            else
              List.modify
                (fun n => .mk n.title n.full_path n.unread_count n.feeds
                  (insert_into_tree n.children components full_path feeds (depth + 1)))
                pos nodes
        | none =>
            if is_last then
              nodes ++ [.mk current_title full_path 0 feeds []]
            else
              let ancestor_path := List.intercalate pathSep (components.take (depth + 1))
              nodes ++ [.mk current_title ancestor_path 0 []
                (insert_into_tree [] components full_path feeds (depth + 1))] := by
  by_cases h : depth ≥ components.length
  · have h0 : components.length - depth = 0 := by omega
    rw [insert_into_tree, h0, if_pos h]
    rfl
  · have h1 : components.length - depth = (components.length - (depth + 1)) + 1 := by omega
    rw [insert_into_tree, h1, if_neg h]
    rfl

/-- The proposition form of the Bool comparator `pathLe`, for use with
Mathlib's sorting lemmas. -/
def pathLeP (a b : RStr) : Prop := pathLe a b = true

instance : DecidableRel pathLeP :=
  fun a b => inferInstanceAs (Decidable (pathLe a b = true))

/-- build_group_tree (src/app.rs): build the hierarchical group forest from the
flat feed list plus the empty-group paths, then recompute all unread counts.
Rust's `Vec::sort` (a stable merge sort) is modelled by `List.insertionSort`:
the path list is duplicate-free, so every sort stable or not produces the same
result, and insertion sort is kernel-computable. -/
def build_group_tree (feeds : List Feed) (empty_groups : List RStr) : List GroupNode :=
  let all_paths := List.insertionSort pathLeP (addEmptyGroups (pathKeys feeds) empty_groups)
  if all_paths = [] then []
  else
    let root_nodes := all_paths.foldl
      (fun nodes path => insert_into_tree nodes (splitPath path) path (feedsForPath feeds path) 0)
      []
    GroupNode.updateList root_nodes

/-- FeedListItem (src/app.rs): a row of the feeds pane. -/
inductive FeedListItem where
  | All (unread_count : Nat)
  | GroupHeader (title : RStr) (full_path : RStr) (collapsed : Bool)
      (unread_count : Nat) (depth : Nat)
  | Feed (feed : Feed) (depth : Nat)
deriving DecidableEq, Repr

mutual
/-- App::add_tree_node (src/app.rs): push this node's header row, then — only
when neither the node itself nor an ancestor is collapsed — its direct feed
rows and, recursively, its child groups. -/
def add_tree_node (collapsed_groups : List RStr) : GroupNode → Nat → Bool → List FeedListItem
  | .mk title full_path unread feeds children, depth, parent_collapsed =>
      let is_collapsed := collapsed_groups.contains full_path
      let actually_collapsed := parent_collapsed || is_collapsed
      FeedListItem.GroupHeader title full_path is_collapsed unread depth ::
        (if actually_collapsed then []
         else
           feeds.map (fun f => FeedListItem.Feed f (depth + 1)) ++
             addTreeNodeList collapsed_groups children (depth + 1) actually_collapsed)
def addTreeNodeList (collapsed_groups : List RStr) :
    List GroupNode → Nat → Bool → List FeedListItem
  | [], _, _ => []
  | n :: ns, depth, parent_collapsed =>
      add_tree_node collapsed_groups n depth parent_collapsed ++
        addTreeNodeList collapsed_groups ns depth parent_collapsed
end

mutual
/-- Boolean structural equality on `GroupNode` (deriving cannot handle the
nested recursion, so the instance is written out). -/
def GroupNode.beqNode : GroupNode → GroupNode → Bool
  | .mk t p u f c, .mk t' p' u' f' c' =>
      t == t' && p == p' && u == u' && f == f' && GroupNode.beqList c c'
def GroupNode.beqList : List GroupNode → List GroupNode → Bool
  | [], [] => true
  | a :: as, b :: bs => GroupNode.beqNode a b && GroupNode.beqList as bs
  | _, _ => false
end

mutual
theorem GroupNode.beqNode_eq : ∀ a b : GroupNode, GroupNode.beqNode a b = true ↔ a = b
  | .mk t p u f c, .mk t' p' u' f' c' => by
      simp only [GroupNode.beqNode, Bool.and_eq_true, beq_iff_eq, GroupNode.mk.injEq,
        GroupNode.beqList_eq c c']
      tauto
theorem GroupNode.beqList_eq : ∀ as bs : List GroupNode, GroupNode.beqList as bs = true ↔ as = bs
  | [], [] => by simp [GroupNode.beqList]
  | [], _ :: _ => by simp [GroupNode.beqList]
  | _ :: _, [] => by simp [GroupNode.beqList]
  | a :: as, b :: bs => by
      simp only [GroupNode.beqList, Bool.and_eq_true, GroupNode.beqNode_eq a b,
        GroupNode.beqList_eq as bs, List.cons.injEq]
end

instance : DecidableEq GroupNode := fun a b =>
  decidable_of_iff (GroupNode.beqNode a b = true) (GroupNode.beqNode_eq a b)

/-- App::move_feed_selection (src/app.rs): circular cursor movement over the
feed list.  Only the cursor update is embedded here; the article-load request
the source sends afterwards travels on a channel and does not touch the cursor. -/
def move_feed_selection (feed_list_items : List FeedListItem) (selected : Option Nat)
    (delta : Int) : Option Nat :=
  if feed_list_items = [] then selected
  else
    let current := selected.getD 0
    let len := feed_list_items.length
    let new_idx :=
      if delta ≥ 0 then (current + delta.toNat) % len
      else
        let abs_delta := (-delta).toNat
        let offset := abs_delta % len
        if offset ≤ current then current - offset else len - (offset - current)
    some new_idx

/-- App::move_article_selection (src/app.rs): circular cursor movement over the
article list, with the same arithmetic as the feed-list variant.  The
mark-as-read and render side effects travel on channels and do not touch the
cursor. -/
def move_article_selection (articles : List Article) (selected : Option Nat)
    (delta : Int) : Option Nat :=
  if articles = [] then selected
  else
    let current := selected.getD 0
    let len := articles.length
    let new_idx :=
      if delta ≥ 0 then (current + delta.toNat) % len
      else
        let abs_delta := (-delta).toNat
        let offset := abs_delta % len
        if offset ≤ current then current - offset else len - (offset - current)
    some new_idx

theorem move_selection_core (len current : Nat) (delta : Int) (hlen : 0 < len)
    (hcur : current < len) :
    ∃ r : Nat, r < len ∧ (r : Int) = ((current : Int) + delta) % (len : Int) ∧
      (if delta ≥ 0 then (current + delta.toNat) % len
       else
         let abs_delta := (-delta).toNat
         let offset := abs_delta % len
         if offset ≤ current then current - offset else len - (offset - current)) = r := by
  by_cases hd : delta ≥ 0
  · refine ⟨(current + delta.toNat) % len, Nat.mod_lt _ hlen, ?_, by rw [if_pos hd]⟩
    push_cast
    rw [Int.toNat_of_nonneg hd]
  · push_neg at hd
    set d := (-delta).toNat with hdd
    have h1 : delta = -(d : Int) := by omega
    have hofs : d % len < len := Nat.mod_lt _ hlen
    have key : ((current : Int) + delta) % (len : Int) =
        ((current : Int) - ((d % len : Nat) : Int)) % (len : Int) := by
      rw [h1, ← sub_eq_add_neg]
      rw [Int.sub_emod ((current : Int)) ((d : Int)),
        Int.sub_emod ((current : Int)) (((d % len : Nat) : Int))]
      rw [← Int.natCast_mod d len]
      rw [Int.emod_eq_of_lt (Int.natCast_nonneg (d % len)) (by exact_mod_cast hofs)]
    by_cases hoc : d % len ≤ current
    · refine ⟨current - d % len, by omega, ?_, by rw [if_neg (by omega), if_pos hoc]⟩
      rw [key]
      rw [Int.emod_eq_of_lt (by omega) (by omega)]
      omega
    · refine ⟨len - (d % len - current), by omega, ?_,
        by rw [if_neg (by omega), if_neg hoc]⟩
      rw [key]
      rw [show ((current : Int) - ((d % len : Nat) : Int)) % (len : Int) =
          ((current : Int) - ((d % len : Nat) : Int) + (len : Int) * 1) % (len : Int) from
        (Int.add_mul_emod_self_left _ _ _).symm]
      rw [Int.emod_eq_of_lt (by omega) (by omega)]
      omega

/-- C10: selection movement is circular modular arithmetic on both lists —
on an empty list it is a no-op; otherwise the new cursor is the unique
in-range representative of current + delta modulo the list length, so moving
down from the last row wraps to the first and moving up from the first wraps
to the last. -/
theorem C10_move_selection_circular :
    (∀ (sel : Option Nat) (delta : Int), move_feed_selection [] sel delta = sel) ∧
    (∀ (sel : Option Nat) (delta : Int), move_article_selection [] sel delta = sel) ∧
    (∀ (items : List FeedListItem) (current : Nat) (delta : Int),
      items ≠ [] → current < items.length →
      ∃ r : Nat, move_feed_selection items (some current) delta = some r ∧
        r < items.length ∧ (r : Int) = ((current : Int) + delta) % (items.length : Int)) ∧
    (∀ (articles : List Article) (current : Nat) (delta : Int),
      articles ≠ [] → current < articles.length →
      ∃ r : Nat, move_article_selection articles (some current) delta = some r ∧
        r < articles.length ∧ (r : Int) = ((current : Int) + delta) % (articles.length : Int)) ∧
    (∀ (items : List FeedListItem), items ≠ [] →
      move_feed_selection items (some (items.length - 1)) 1 = some 0 ∧
      move_feed_selection items (some 0) (-1) = some (items.length - 1)) ∧
    (∀ (articles : List Article), articles ≠ [] →
      move_article_selection articles (some (articles.length - 1)) 1 = some 0 ∧
      move_article_selection articles (some 0) (-1) = some (articles.length - 1)) := by
  have hlen : ∀ {α : Type} (l : List α), l ≠ [] → 0 < l.length := by
    intro α l h
    cases l with
    | nil => exact absurd rfl h
    | cons a as => simp
  refine ⟨fun sel delta => by rw [move_feed_selection, if_pos rfl],
    fun sel delta => by rw [move_article_selection, if_pos rfl], ?_, ?_, ?_, ?_⟩
  · intro items current delta hne hcur
    obtain ⟨r, hr, hmod, hform⟩ := move_selection_core items.length current delta
      (hlen items hne) hcur
    exact ⟨r, by rw [move_feed_selection, if_neg hne]; exact congrArg some hform, hr, hmod⟩
  · intro articles current delta hne hcur
    obtain ⟨r, hr, hmod, hform⟩ := move_selection_core articles.length current delta
      (hlen articles hne) hcur
    exact ⟨r, by rw [move_article_selection, if_neg hne]; exact congrArg some hform, hr, hmod⟩
  · intro items hne
    have h0 : 0 < items.length := hlen items hne
    constructor
    · rw [move_feed_selection, if_neg hne]
      simp only [Option.getD_some]
      rw [if_pos (by omega : (1 : Int) ≥ 0)]
      have : items.length - 1 + (1 : Int).toNat = items.length := by
        simp only [Int.toNat_one]
        omega
      rw [this, Nat.mod_self]
    · rw [move_feed_selection, if_neg hne]
      simp only [Option.getD_some]
      rw [if_neg (by omega : ¬ (-1 : Int) ≥ 0)]
      simp only [neg_neg, Int.toNat_one]
      by_cases h1 : items.length = 1
      · rw [h1]
        simp
      · have hm : 1 % items.length = 1 := Nat.mod_eq_of_lt (by omega)
        rw [hm, if_neg (by omega)]
  · intro articles hne
    have h0 : 0 < articles.length := hlen articles hne
    constructor
    · rw [move_article_selection, if_neg hne]
      simp only [Option.getD_some]
      rw [if_pos (by omega : (1 : Int) ≥ 0)]
      have : articles.length - 1 + (1 : Int).toNat = articles.length := by
        simp only [Int.toNat_one]
        omega
      rw [this, Nat.mod_self]
    · rw [move_article_selection, if_neg hne]
      simp only [Option.getD_some]
      rw [if_neg (by omega : ¬ (-1 : Int) ≥ 0)]
      simp only [neg_neg, Int.toNat_one]
      by_cases h1 : articles.length = 1
      · rw [h1]
        simp
      · have hm : 1 % articles.length = 1 := Nat.mod_eq_of_lt (by omega)
        rw [hm, if_neg (by omega)]

/-- Witness for C10 at a concrete three-row list: wrapping down from the last
row and up from the first row. -/
theorem C10_witness :
    ([FeedListItem.All 0, FeedListItem.All 1, FeedListItem.All 2] : List FeedListItem) ≠ [] ∧
    move_feed_selection [FeedListItem.All 0, FeedListItem.All 1, FeedListItem.All 2]
      (some 2) 1 = some 0 ∧
    move_feed_selection [FeedListItem.All 0, FeedListItem.All 1, FeedListItem.All 2]
      (some 0) (-1) = some 2 :=
  ⟨by decide,
   (C10_move_selection_circular.2.2.2.2.1
     [FeedListItem.All 0, FeedListItem.All 1, FeedListItem.All 2] (by decide)).1,
   (C10_move_selection_circular.2.2.2.2.1
     [FeedListItem.All 0, FeedListItem.All 1, FeedListItem.All 2] (by decide)).2⟩

/-- App::collapse_all_groups (src/app.rs): the new collapsed-group set is the
set of `group_title` values of the loaded feeds (each feed contributes its
group title unconditionally, so standalone feeds contribute the empty string).
The `HashSet` is modelled as a deduplicated list; the subsequent feed-list
rebuild is separate (`build_feed_list_items`). -/
def collapse_all_groups (feeds : List Feed) : List RStr :=
  (feeds.map Feed.group_title).dedup

/-- App::toggle_all_groups (src/app.rs): if nothing is collapsed, collapse the
set of group titles occurring on feeds; otherwise clear the set. -/
def toggle_all_groups (feeds : List Feed) (collapsed_groups : List RStr) : List RStr :=
  if collapsed_groups = [] then (feeds.map Feed.group_title).dedup else []

/-- Unfolding equation for `add_tree_node` (definitional). -/
theorem add_tree_node_eq (collapsed : List RStr) (t p : RStr) (u : Nat) (fs : List Feed)
    (cs : List GroupNode) (depth : Nat) (pc : Bool) :
    add_tree_node collapsed (.mk t p u fs cs) depth pc =
      FeedListItem.GroupHeader t p (collapsed.contains p) u depth ::
        (if pc || collapsed.contains p then []
         else fs.map (fun f => FeedListItem.Feed f (depth + 1)) ++
           addTreeNodeList collapsed cs (depth + 1) (pc || collapsed.contains p)) := rfl

/-- C9: `collapse all` and `toggle all` fill the collapsed set exactly with the
group-path strings occurring as some feed's `group_title` (including the empty
string from standalone feeds); a path with no direct feed is never added, so a
node with such a path still has its children appended by the flattener. -/
theorem C9_collapse_all_only_direct_feed_paths :
    (∀ (feeds : List Feed) (p : RStr),
      p ∈ collapse_all_groups feeds ↔ ∃ f ∈ feeds, f.group_title = p) ∧
    (∀ (feeds : List Feed) (collapsed : List RStr) (p : RStr),
      p ∈ toggle_all_groups feeds collapsed → ∃ f ∈ feeds, f.group_title = p) ∧
    (∀ (feeds : List Feed) (n : GroupNode) (depth : Nat),
      (∀ f ∈ feeds, f.group_title ≠ n.full_path) →
      add_tree_node (collapse_all_groups feeds) n depth false =
        FeedListItem.GroupHeader n.title n.full_path false n.unread_count depth ::
          (n.feeds.map (fun f => FeedListItem.Feed f (depth + 1)) ++
            addTreeNodeList (collapse_all_groups feeds) n.children (depth + 1) false)) := by
  have hmem : ∀ (feeds : List Feed) (p : RStr),
      p ∈ collapse_all_groups feeds ↔ ∃ f ∈ feeds, f.group_title = p := by
    intro feeds p
    simp [collapse_all_groups]
  refine ⟨hmem, ?_, ?_⟩
  · intro feeds collapsed p hp
    rw [toggle_all_groups] at hp
    by_cases hc : collapsed = []
    · rw [if_pos hc] at hp
      exact (hmem feeds p).mp hp
    · rw [if_neg hc] at hp
      simp at hp
  · intro feeds n depth hno
    obtain ⟨t, p, u, fs, cs⟩ := n
    have hnotmem : p ∉ collapse_all_groups feeds := by
      intro hmem'
      obtain ⟨f, hf, hfp⟩ := (hmem feeds _).mp hmem'
      exact hno f hf (by simpa [GroupNode.full_path] using hfp)
    have hcontains : (collapse_all_groups feeds).contains p = false := by
      simpa using hnotmem
    rw [add_tree_node_eq, hcontains]
    simp [GroupNode.title, GroupNode.full_path, GroupNode.unread_count, GroupNode.feeds,
      GroupNode.children]

/-- Witness for C9: a group with a subgroup but no direct feeds is not
collapsed by `collapse all`, so its subgroup header stays visible. -/
theorem C9_witness :
    (∀ f ∈ [Feed.mk 1 ([' '] ++ []) [] [] none none 0], f.group_title ≠ ['N']) ∧
    add_tree_node (collapse_all_groups [Feed.mk 1 ([' '] ++ []) [] [] none none 0])
        (GroupNode.mk ['N'] ['N'] 0 [] []) 0 false =
      FeedListItem.GroupHeader ['N'] ['N'] false 0 0 :: ([] ++ []) := by
  refine ⟨by decide, ?_⟩
  have h := C9_collapse_all_only_direct_feed_paths.2.2
    [Feed.mk 1 ([' '] ++ []) [] [] none none 0] (GroupNode.mk ['N'] ['N'] 0 [] []) 0
    (by decide)
  simpa using h

/-- C4: the flattener always emits a group's header row (even when the group is
collapsed), child rows appear exactly when neither the node nor an ancestor is
collapsed, and with every root collapsed the flattened forest degenerates to
exactly the list of root headers (collapsing removes only descendants). -/
theorem C4_collapsed_header_rows :
    (∀ (collapsed : List RStr) (t p : RStr) (u : Nat) (fs : List Feed)
      (cs : List GroupNode) (depth : Nat) (pc : Bool),
      add_tree_node collapsed (.mk t p u fs cs) depth pc =
        FeedListItem.GroupHeader t p (collapsed.contains p) u depth ::
          (if pc || collapsed.contains p then []
           else fs.map (fun f => FeedListItem.Feed f (depth + 1)) ++
             addTreeNodeList collapsed cs (depth + 1) (pc || collapsed.contains p))) ∧
    (∀ (collapsed : List RStr) (ns : List GroupNode) (depth : Nat),
      (∀ n ∈ ns, collapsed.contains n.full_path = true) →
      addTreeNodeList collapsed ns depth false =
        ns.map (fun n => FeedListItem.GroupHeader n.title n.full_path true n.unread_count depth)) := by
  constructor
  · intro collapsed t p u fs cs depth pc
    exact add_tree_node_eq collapsed t p u fs cs depth pc
  · intro collapsed ns
    induction ns with
    | nil => intro depth h; rfl
    | cons n ns ih =>
        intro depth h
        obtain ⟨t, p, u, fs, cs⟩ := n
        have hc : collapsed.contains p = true := by
          have := h _ (List.mem_cons_self _ _)
          simpa [GroupNode.full_path] using this
        rw [addTreeNodeList, List.map_cons]
        rw [ih depth (fun m hm => h m (List.mem_cons_of_mem _ hm))]
        rw [add_tree_node_eq, hc]
        simp [GroupNode.title, GroupNode.full_path, GroupNode.unread_count]

/-- Witness for C4: with the two roots collapsed, flattening a forest with
nested children yields exactly the two header rows. -/
theorem C4_witness :
    (∀ n ∈ [GroupNode.mk ['A'] ['A'] 3 [] [GroupNode.mk ['B'] ['A', 'B'] 3 [] []],
        GroupNode.mk ['C'] ['C'] 0 [] []],
      ([['A'], ['C']] : List RStr).contains n.full_path = true) ∧
    addTreeNodeList [['A'], ['C']]
        [GroupNode.mk ['A'] ['A'] 3 [] [GroupNode.mk ['B'] ['A', 'B'] 3 [] []],
          GroupNode.mk ['C'] ['C'] 0 [] []] 0 false =
      [FeedListItem.GroupHeader ['A'] ['A'] true 3 0,
        FeedListItem.GroupHeader ['C'] ['C'] true 0 0] := by
  refine ⟨by decide, ?_⟩
  have h := C4_collapsed_header_rows.2 [['A'], ['C']]
    [GroupNode.mk ['A'] ['A'] 3 [] [GroupNode.mk ['B'] ['A', 'B'] 3 [] []],
      GroupNode.mk ['C'] ['C'] 0 [] []] 0 (by decide)
  simpa using h

/-- The closure `matches!(item, FeedListItem::Feed { feed, .. } if feed.id == feed_id)`
used by the selection-restore pass of build_feed_list_items (src/app.rs). -/
def isFeedRowWithId (feed_id : Int) : FeedListItem → Bool
  | FeedListItem.Feed f _ => f.id == feed_id
  | _ => false

/-- The closure `matches!(item, FeedListItem::GroupHeader { full_path, .. } if *full_path == group_path)`
used by the selection-restore pass of build_feed_list_items (src/app.rs). -/
def isHeaderRowWithPath (group_path : RStr) : FeedListItem → Bool
  | FeedListItem.GroupHeader _ fp _ _ _ => fp == group_path
  | _ => false

/-- App::build_feed_list_items (src/app.rs): rebuild the flat feeds-pane list
(`All` row, then standalone feeds, then the group forest) and recompute the
cursor, preferring identity (All / feed id / group full path) over the
clamped numeric index.  Returns the new list together with the new cursor. -/
def build_feed_list_items (old_items : List FeedListItem) (old_selection : Option Nat)
    (feeds : List Feed) (empty_groups : List RStr) (collapsed_groups : List RStr) :
    List FeedListItem × Option Nat :=
  let old_was_all := (old_selection.bind (fun idx => (old_items.get? idx).bind (fun item =>
    match item with
    | FeedListItem.All _ => some true
    | _ => none))).getD false
  let old_selected_feed_id := old_selection.bind (fun idx => (old_items.get? idx).bind
    (fun item =>
      match item with
      | FeedListItem.Feed f _ => some f.id
      | _ => none))
  let old_selected_group_path := old_selection.bind (fun idx => (old_items.get? idx).bind
    (fun item =>
      match item with
      | FeedListItem.GroupHeader _ fp _ _ _ => some fp
      | _ => none))
  let total_unread := (feeds.map Feed.unread_count).sum
  let standalone_feeds := feeds.filter (fun f => f.group_title.isEmpty)
  let grouped_feeds := feeds.filter (fun f => ¬ f.group_title.isEmpty)
  let tree := build_group_tree grouped_feeds empty_groups
  let items := FeedListItem.All total_unread ::
    (standalone_feeds.map (fun f => FeedListItem.Feed f 0) ++
      addTreeNodeList collapsed_groups tree 0 false)
  let sel :=
    if old_was_all then some 0
    else
      match old_selected_feed_id.bind (fun fid => listPosition (isFeedRowWithId fid) items) with
      | some pos => some pos
      | none =>
          match old_selected_group_path.bind
              (fun gp => listPosition (isHeaderRowWithPath gp) items) with
          | some pos => some pos
          | none =>
              if items = [] then none
              else some (min (old_selection.getD 0) (items.length - 1))
  (items, sel)

/-- C2: the rebuilt cursor follows the preference order — (1) the All row is
reselected; (2) else a previously selected feed is re-found by id; (3) else a
previously selected group header is re-found by full path; (4) else the old
numeric index is clamped into bounds (out-of-range or vanished selections
included, and a missing selection falls back to the top); (5) the list can
only select nothing when empty, and the rebuilt list is in fact never empty.
In particular a still-present selected feed id keeps the cursor on that id. -/
theorem C2_selection_preference_order (old_items : List FeedListItem)
    (old_sel : Option Nat) (feeds : List Feed) (eg cg : List RStr) :
    ((build_feed_list_items old_items old_sel feeds eg cg).1 ≠ [] ∧
      ((build_feed_list_items old_items old_sel feeds eg cg).1 = [] →
        (build_feed_list_items old_items old_sel feeds eg cg).2 = none)) ∧
    (∀ i u, old_sel = some i → old_items.get? i = some (FeedListItem.All u) →
      (build_feed_list_items old_items old_sel feeds eg cg).2 = some 0 ∧
      (build_feed_list_items old_items old_sel feeds eg cg).1.head? =
        some (FeedListItem.All ((feeds.map Feed.unread_count).sum))) ∧
    (∀ i f d j, old_sel = some i → old_items.get? i = some (FeedListItem.Feed f d) →
      listPosition (isFeedRowWithId f.id)
          (build_feed_list_items old_items old_sel feeds eg cg).1 = some j →
      (build_feed_list_items old_items old_sel feeds eg cg).2 = some j) ∧
    (∀ i t fp c u d j, old_sel = some i →
      old_items.get? i = some (FeedListItem.GroupHeader t fp c u d) →
      listPosition (isHeaderRowWithPath fp)
          (build_feed_list_items old_items old_sel feeds eg cg).1 = some j →
      (build_feed_list_items old_items old_sel feeds eg cg).2 = some j) ∧
    ((old_sel = none →
        (build_feed_list_items old_items old_sel feeds eg cg).2 = some 0) ∧
      (∀ i, old_sel = some i → old_items.get? i = none →
        (build_feed_list_items old_items old_sel feeds eg cg).2 =
          some (min i ((build_feed_list_items old_items old_sel feeds eg cg).1.length - 1))) ∧
      (∀ i f d, old_sel = some i → old_items.get? i = some (FeedListItem.Feed f d) →
        listPosition (isFeedRowWithId f.id)
            (build_feed_list_items old_items old_sel feeds eg cg).1 = none →
        (build_feed_list_items old_items old_sel feeds eg cg).2 =
          some (min i ((build_feed_list_items old_items old_sel feeds eg cg).1.length - 1))) ∧
      (∀ i t fp c u d, old_sel = some i →
        old_items.get? i = some (FeedListItem.GroupHeader t fp c u d) →
        listPosition (isHeaderRowWithPath fp)
            (build_feed_list_items old_items old_sel feeds eg cg).1 = none →
        (build_feed_list_items old_items old_sel feeds eg cg).2 =
          some (min i ((build_feed_list_items old_items old_sel feeds eg cg).1.length - 1)))) ∧
    (∀ i f d, old_sel = some i → old_items.get? i = some (FeedListItem.Feed f d) →
      (∃ item ∈ (build_feed_list_items old_items old_sel feeds eg cg).1,
        isFeedRowWithId f.id item = true) →
      ∃ j item, (build_feed_list_items old_items old_sel feeds eg cg).2 = some j ∧
        (build_feed_list_items old_items old_sel feeds eg cg).1.get? j = some item ∧
        isFeedRowWithId f.id item = true) := by
  have hfeed_found : ∀ i f d j, old_sel = some i →
      old_items.get? i = some (FeedListItem.Feed f d) →
      listPosition (isFeedRowWithId f.id)
          (build_feed_list_items old_items old_sel feeds eg cg).1 = some j →
      (build_feed_list_items old_items old_sel feeds eg cg).2 = some j := by
    intro i f d j hsel hitem hfind
    subst hsel
    simp only [List.get?_eq_getElem?] at hitem
    simp [build_feed_list_items] at hfind
    simp [build_feed_list_items, hitem, hfind]
  refine ⟨⟨by simp [build_feed_list_items], by simp [build_feed_list_items]⟩,
    ?_, hfeed_found, ?_, ⟨?_, ?_, ?_, ?_⟩, ?_⟩
  · intro i u hsel hitem
    subst hsel
    simp only [List.get?_eq_getElem?] at hitem
    simp [build_feed_list_items, hitem]
  · intro i t fp c u d j hsel hitem hfind
    subst hsel
    simp only [List.get?_eq_getElem?] at hitem
    simp [build_feed_list_items] at hfind
    simp [build_feed_list_items, hitem, hfind]
  · intro hsel
    subst hsel
    simp [build_feed_list_items]
  · intro i hsel hitem
    subst hsel
    simp only [List.get?_eq_getElem?] at hitem
    simp [build_feed_list_items, hitem]
  · intro i f d hsel hitem hfind
    subst hsel
    simp only [List.get?_eq_getElem?] at hitem
    simp [build_feed_list_items] at hfind
    simp [build_feed_list_items, hitem, hfind]
  · intro i t fp c u d hsel hitem hfind
    subst hsel
    simp only [List.get?_eq_getElem?] at hitem
    simp [build_feed_list_items] at hfind
    simp [build_feed_list_items, hitem, hfind]
  · intro i f d hsel hitem hex
    obtain ⟨j, hj⟩ := listPosition_of_mem hex
    obtain ⟨item, hget, hp⟩ := listPosition_eq_some hj
    exact ⟨j, item, hfeed_found i f d j hsel hitem hj, hget, hp⟩

/-- Sample grouped feed used by concrete witnesses. -/
def wFeedA : Feed := ⟨1, "G".data, "A".data, "u1".data, none, none, 2⟩

/-- Second sample grouped feed used by concrete witnesses. -/
def wFeedB : Feed := ⟨2, "G".data, "B".data, "u2".data, none, none, 3⟩

/-- Sample standalone feed used by concrete witnesses. -/
def wFeedS : Feed := ⟨3, [], "S".data, "u3".data, none, none, 7⟩

/-- Witness for C2: feed id 2 was selected, the rebuild moves it to a new
position, and the cursor follows it by identity. -/
theorem C2_witness :
    [FeedListItem.All 0, FeedListItem.Feed wFeedB 0].get? 1 =
      some (FeedListItem.Feed wFeedB 0) ∧
    (∃ item ∈ (build_feed_list_items [FeedListItem.All 0, FeedListItem.Feed wFeedB 0]
        (some 1) [wFeedA, wFeedB, wFeedS] [] []).1, isFeedRowWithId wFeedB.id item = true) ∧
    (∃ j item, (build_feed_list_items [FeedListItem.All 0, FeedListItem.Feed wFeedB 0]
        (some 1) [wFeedA, wFeedB, wFeedS] [] []).2 = some j ∧
      (build_feed_list_items [FeedListItem.All 0, FeedListItem.Feed wFeedB 0]
        (some 1) [wFeedA, wFeedB, wFeedS] [] []).1.get? j = some item ∧
      isFeedRowWithId wFeedB.id item = true) :=
  ⟨by decide, by decide,
    (C2_selection_preference_order [FeedListItem.All 0, FeedListItem.Feed wFeedB 0]
        (some 1) [wFeedA, wFeedB, wFeedS] [] []).2.2.2.2.2 1 wFeedB 0 rfl
      (by decide) (by decide)⟩

/-- Requests the App sends to background tasks (src/app.rs `start_*` methods
spawn tasks / send on channels); the spawned work itself is outside the core. -/
inductive Effect where
  | reloadFeeds
  | loadArticlesForFeed (feed_id : Int)
  | loadArticlesForGroup (group_title : RStr)
  | loadAllArticles
  | toggleRead (article_id : Int)
  | toggleStar (article_id : Int)
  | renderArticle
  | refreshAll
deriving DecidableEq, Repr

/-- DbResult (src/app.rs): result of an async database operation. -/
inductive DbResult where
  | FeedsLoaded (feeds : List Feed)
  | ArticlesLoaded (feed_id : Int) (articles : List Article)
  | GroupArticlesLoaded (group_title : RStr) (articles : List Article)
  | AllArticlesLoaded (articles : List Article)
  | ReadToggled (article_id : Int) (new_value : Bool)
  | StarToggled (article_id : Int) (new_value : Bool)
  | MarkedRead (feed_id : Option Int)
deriving DecidableEq, Repr

/-- App (src/app.rs): the fields of the application state touched by
`handle_db_result` and the helpers it calls.  `feeds_selected` and
`articles_selected` are the two `ListState` cursors; `effects` records the
requests handed to background tasks in order. -/
structure App where
  feed_list_items : List FeedListItem
  feeds_selected : Option Nat
  articles : List Article
  articles_selected : Option Nat
  selected_article_id : Option Int
  article_content : RStr
  article_content_lines : Nat
  article_scroll : Nat
  feeds : List Feed
  collapsed_groups : List RStr
  empty_groups : List RStr
  is_refreshing : Bool
  pending_refreshes : Nat
  skip_articles_reload_after_feeds_load : Bool
  refresh_on_startup_pending : Bool
  effects : List Effect
deriving DecidableEq, Repr

/-- App::selected_feed (src/app.rs): the feed under the feeds-pane cursor, or
`none` on the All row, a group header, or without a selection. -/
def App.selected_feed (app : App) : Option Feed :=
  app.feeds_selected.bind (fun idx => (app.feed_list_items.get? idx).bind (fun item =>
    match item with
    | FeedListItem.All _ => none
    | FeedListItem.Feed f _ => some f
    | FeedListItem.GroupHeader _ _ _ _ _ => none))

def App.start_reload_feeds (app : App) : App :=
  { app with effects := app.effects ++ [Effect.reloadFeeds] }

def App.start_load_articles_for_feed (app : App) (feed_id : Int) : App :=
  { app with effects := app.effects ++ [Effect.loadArticlesForFeed feed_id] }

def App.start_load_articles_for_group (app : App) (group_title : RStr) : App :=
  { app with effects := app.effects ++ [Effect.loadArticlesForGroup group_title] }

def App.start_load_all_articles (app : App) : App :=
  { app with effects := app.effects ++ [Effect.loadAllArticles] }

def App.start_toggle_read (app : App) (article_id : Int) : App :=
  { app with effects := app.effects ++ [Effect.toggleRead article_id] }

/-- App::start_refresh_all (src/app.rs): no-op without feeds, else mark the
refresh in progress and fan out fetch tasks (one `refreshAll` effect here). -/
def App.start_refresh_all (app : App) : App :=
  if app.feeds = [] then app
  else
    { app with
      pending_refreshes := app.feeds.length
      is_refreshing := true
      effects := app.effects ++ [Effect.refreshAll] }

/-- App::start_render_article_content (src/app.rs): with a valid article
selection, spawn the render job and clear the displayed content; without one,
just clear the displayed content. -/
def App.start_render_article_content (app : App) : App :=
  match app.articles_selected with
  | some i =>
      if i < app.articles.length then
        { app with
          effects := app.effects ++ [Effect.renderArticle]
          article_content := []
          article_content_lines := 0 }
      else { app with article_content := [], article_content_lines := 0 }
  | none => { app with article_content := [], article_content_lines := 0 }

/-- App::load_articles_for_selection_at (src/app.rs). -/
def App.load_articles_for_selection_at (app : App) (idx : Nat) : App :=
  match app.feed_list_items.get? idx with
  | some (FeedListItem.All _) => app.start_load_all_articles
  | some (FeedListItem.GroupHeader _ fp _ _ _) => app.start_load_articles_for_group fp
  | some (FeedListItem.Feed f _) => app.start_load_articles_for_feed f.id
  | none => app

/-- App::load_articles_for_current_selection (src/app.rs). -/
def App.load_articles_for_current_selection (app : App) : App :=
  match app.feeds_selected with
  | some i => app.load_articles_for_selection_at i
  | none => app

/-- App::build_feed_list_items as a state update (src/app.rs); the pure
`build_feed_list_items` above is the embedding of the method body, and this
wrapper (named `rebuildFeedListItems` to avoid shadowing it inside the `App`
namespace) installs the resulting list and cursor. -/
def App.rebuildFeedListItems (app : App) : App :=
  let r := build_feed_list_items app.feed_list_items app.feeds_selected app.feeds
    app.empty_groups app.collapsed_groups
  { app with
    feed_list_items := r.1
    feeds_selected := r.2 }

/-- Rust `iter_mut().find(...)` followed by a field write: update the first
matching article only. -/
def updateFirstArticle (articles : List Article) (article_id : Int)
    (f : Article → Article) : List Article :=
  match articles with
  | [] => []
  | a :: as =>
      if a.id = article_id then f a :: as
      else a :: updateFirstArticle as article_id f

/-- The article-list replacement shared verbatim by the `ArticlesLoaded`,
`GroupArticlesLoaded` and `AllArticlesLoaded` arms of handle_db_result
(src/app.rs): remember the previously selected article id, install the new
batch, restore the selection by id when possible (else select the first
article, marking it read if unread), and re-render. -/
def App.applyArticlesLoaded (app : App) (articles : List Article) : App :=
  let prev_selected_id := (app.articles_selected.bind
    (fun idx => app.articles.get? idx)).map Article.id
  let app := { app with articles := articles }
  let restored_idx := prev_selected_id.bind
    (fun pid => listPosition (fun a => a.id == pid) app.articles)
  if app.articles = [] then
    { app with articles_selected := none, selected_article_id := none }
  else
    match restored_idx with
    | some idx =>
        ({ app with
          articles_selected := some idx
          selected_article_id := prev_selected_id
          article_scroll := 0 }).start_render_article_content
    | none =>
        let app := { app with articles_selected := some 0 }
        let new_article_id := app.articles.head?.map Article.id
        if prev_selected_id = none ∨ prev_selected_id ≠ new_article_id then
          let app :=
            match app.articles.head? with
            | some article =>
                let app := { app with selected_article_id := new_article_id }
                if ¬ article.is_read then app.start_toggle_read article.id else app
            | none => app
          ({ app with article_scroll := 0 }).start_render_article_content
        else app

/-- App::handle_db_result (src/app.rs): route a completed async database
operation, applying article-list results only when the feeds-pane cursor still
targets the same feed / group / All row. -/
def App.handle_db_result (app : App) (result : DbResult) : App :=
  match result with
  | DbResult.FeedsLoaded feeds =>
      let app := { app with feeds := feeds }
      let app := app.rebuildFeedListItems
      let app :=
        if app.refresh_on_startup_pending then
          ({ app with refresh_on_startup_pending := false }).start_refresh_all
        else app
      if app.skip_articles_reload_after_feeds_load then
        { app with skip_articles_reload_after_feeds_load := false }
      else app.load_articles_for_current_selection
  | DbResult.ArticlesLoaded feed_id articles =>
      if app.selected_feed.map Feed.id = some feed_id then
        app.applyArticlesLoaded articles
      else app
  | DbResult.GroupArticlesLoaded group_title articles =>
      let still_viewing := (app.feeds_selected.bind (fun idx =>
        (app.feed_list_items.get? idx).map (fun item =>
          match item with
          | FeedListItem.GroupHeader _ fp _ _ _ => fp == group_title
          | _ => false))).getD false
      if still_viewing then app.applyArticlesLoaded articles else app
  | DbResult.AllArticlesLoaded articles =>
      let still_viewing_all := (app.feeds_selected.bind (fun idx =>
        (app.feed_list_items.get? idx).map (fun item =>
          match item with
          | FeedListItem.All _ => true
          | _ => false))).getD false
      if still_viewing_all then app.applyArticlesLoaded articles else app
  | DbResult.ReadToggled article_id new_value =>
      let upd := updateFirstArticle app.articles article_id
        (fun a => { a with is_read := new_value })
      let app := { app with articles := upd }
      ({ app with skip_articles_reload_after_feeds_load := true }).start_reload_feeds
  | DbResult.StarToggled article_id new_value =>
      let upd := updateFirstArticle app.articles article_id
        (fun a => { a with is_starred := new_value })
      { app with articles := upd }
  | DbResult.MarkedRead feed_id =>
      let app :=
        match feed_id with
        | some fid =>
            if app.selected_feed.map Feed.id = some fid then
              app.start_load_articles_for_feed fid
            else app
        | none => app.start_load_all_articles
      app.start_reload_feeds

/-- C3: an article-list completion whose target (feed id, group path, or the
All mode) no longer matches the feeds-pane cursor is discarded: handling the
message leaves the whole state — in particular the displayed article list, the
article cursor and the rendered article content — unchanged. -/
theorem C3_stale_article_results_discarded :
    (∀ (app : App) (feed_id : Int) (articles : List Article),
      (∀ f, app.selected_feed = some f → f.id ≠ feed_id) →
      app.handle_db_result (DbResult.ArticlesLoaded feed_id articles) = app) ∧
    (∀ (app : App) (group_title : RStr) (articles : List Article),
      (∀ i t fp c u d, app.feeds_selected = some i →
        app.feed_list_items.get? i = some (FeedListItem.GroupHeader t fp c u d) →
        fp ≠ group_title) →
      app.handle_db_result (DbResult.GroupArticlesLoaded group_title articles) = app) ∧
    (∀ (app : App) (articles : List Article),
      (∀ i u, app.feeds_selected = some i →
        app.feed_list_items.get? i ≠ some (FeedListItem.All u)) →
      app.handle_db_result (DbResult.AllArticlesLoaded articles) = app) := by
  refine ⟨?_, ?_, ?_⟩
  · intro app feed_id articles hno
    have hguard : ¬ app.selected_feed.map Feed.id = some feed_id := by
      cases hsel : app.selected_feed with
      | none => simp
      | some f =>
          intro h
          exact hno f hsel (by simpa using h)
    simp [App.handle_db_result, hguard]
  · intro app group_title articles hno
    have hguard : (app.feeds_selected.bind (fun idx =>
        (app.feed_list_items.get? idx).map (fun item =>
          match item with
          | FeedListItem.GroupHeader _ fp _ _ _ => fp == group_title
          | _ => false))).getD false = false := by
      cases hsel : app.feeds_selected with
      | none => rfl
      | some i =>
          simp only [Option.some_bind]
          cases hitem : app.feed_list_items.get? i with
          | none => rfl
          | some item =>
              cases item with
              | GroupHeader t fp c u d =>
                  have hne := hno i t fp c u d hsel hitem
                  show (fp == group_title) = false
                  simpa using hne
              | All u => rfl
              | Feed f d => rfl
    simp only [App.handle_db_result, hguard]
    simp
  · intro app articles hno
    have hguard : (app.feeds_selected.bind (fun idx =>
        (app.feed_list_items.get? idx).map (fun item =>
          match item with
          | FeedListItem.All _ => true
          | _ => false))).getD false = false := by
      cases hsel : app.feeds_selected with
      | none => rfl
      | some i =>
          simp only [Option.some_bind]
          cases hitem : app.feed_list_items.get? i with
          | none => rfl
          | some item =>
              cases item with
              | All u => exact absurd hitem (hno i u hsel)
              | GroupHeader t fp c u d => rfl
              | Feed f d => rfl
    simp only [App.handle_db_result, hguard]
    simp

/-- Sample feed with id 9 for the C3 witness. -/
def wFeedNine : Feed := ⟨9, [], "N".data, "u9".data, none, none, 0⟩

/-- Sample article used by the C3 witness. -/
def wArticle : Article := ⟨100, 9, "g".data, "t".data, none, none, none, none, none, false, false⟩

/-- Concrete App for the C3 witness: the cursor is on feed 9. -/
def wApp : App where
  feed_list_items := [FeedListItem.All 0, FeedListItem.Feed wFeedNine 0]
  feeds_selected := some 1
  articles := [wArticle]
  articles_selected := some 0
  selected_article_id := some 100
  article_content := "old".data
  article_content_lines := 1
  article_scroll := 0
  feeds := [wFeedNine]
  collapsed_groups := []
  empty_groups := []
  is_refreshing := false
  pending_refreshes := 0
  skip_articles_reload_after_feeds_load := false
  refresh_on_startup_pending := false
  effects := []

/-- Witness for C3: an article-list completion for feed 7 arrives while the
cursor is on feed 9 and is discarded without touching the state. -/
theorem C3_witness :
    (∀ f, wApp.selected_feed = some f → f.id ≠ 7) ∧
    wApp.handle_db_result (DbResult.ArticlesLoaded 7 []) = wApp := by
  have hno : ∀ f, wApp.selected_feed = some f → f.id ≠ 7 := by
    intro f hf
    rw [show wApp.selected_feed = some wFeedNine from rfl] at hf
    injection hf with h
    subst h
    decide
  exact ⟨hno, C3_stale_article_results_discarded.1 wApp 7 [] hno⟩

/-- config::FeedSource (src/config.rs): a single feed source — display title,
website url, and the optional dedicated feed url. -/
structure FeedSource where
  title : RStr
  url : RStr
  feed : Option RStr
deriving DecidableEq, Repr

/-- config::FeedConfigItem (src/config.rs): a standalone feed or a group.
config::FeedGroup's two fields (title, nested items) are inlined into the
`Group` constructor: Lean 4.14 supports structural recursion over this nested
inductive but not over the equivalent mutual-inductive pair. -/
inductive FeedConfigItem where
  | Standalone (feed : FeedSource)
  | Group (title : RStr) (feeds : List FeedConfigItem)
deriving Repr

mutual
/-- Boolean structural equality on config items (deriving cannot handle the
nested recursion). -/
def FeedConfigItem.beqItem : FeedConfigItem → FeedConfigItem → Bool
  | .Standalone s, .Standalone s' => s == s'
  | .Group t fs, .Group t' fs' => t == t' && FeedConfigItem.beqItems fs fs'
  | _, _ => false
def FeedConfigItem.beqItems : List FeedConfigItem → List FeedConfigItem → Bool
  | [], [] => true
  | a :: as, b :: bs => FeedConfigItem.beqItem a b && FeedConfigItem.beqItems as bs
  | _, _ => false
end

mutual
theorem FeedConfigItem.beqItem_eq : ∀ a b : FeedConfigItem,
    FeedConfigItem.beqItem a b = true ↔ a = b
  | .Standalone s, .Standalone s' => by
      simp [FeedConfigItem.beqItem]
  | .Standalone s, .Group t' fs' => by
      simp [FeedConfigItem.beqItem]
  | .Group t fs, .Standalone s' => by
      simp [FeedConfigItem.beqItem]
  | .Group t fs, .Group t' fs' => by
      simp only [FeedConfigItem.beqItem, Bool.and_eq_true, beq_iff_eq,
        FeedConfigItem.beqItems_eq fs fs', FeedConfigItem.Group.injEq]
theorem FeedConfigItem.beqItems_eq : ∀ as bs : List FeedConfigItem,
    FeedConfigItem.beqItems as bs = true ↔ as = bs
  | [], [] => by simp [FeedConfigItem.beqItems]
  | [], _ :: _ => by simp [FeedConfigItem.beqItems]
  | _ :: _, [] => by simp [FeedConfigItem.beqItems]
  | a :: as, b :: bs => by
      simp only [FeedConfigItem.beqItems, Bool.and_eq_true, FeedConfigItem.beqItem_eq a b,
        FeedConfigItem.beqItems_eq as bs, List.cons.injEq]
end

instance : DecidableEq FeedConfigItem := fun a b =>
  decidable_of_iff (FeedConfigItem.beqItem a b = true) (FeedConfigItem.beqItem_eq a b)

mutual
/-- FeedConfigItem::collect_feeds_recursive (src/config.rs): every feed with
its full group path (`none` for a top-level standalone feed). -/
def FeedConfigItem.collect_feeds_recursive :
    FeedConfigItem → Option RStr → List (Option RStr × FeedSource)
  | .Standalone feed, current_path => [(current_path, feed)]
  | .Group title fs, current_path =>
      let new_path :=
        match current_path with
        | some path => path ++ pathSep ++ title
        | none => title
      FeedConfigItem.collectFeedsList fs (some new_path)
def FeedConfigItem.collectFeedsList :
    List FeedConfigItem → Option RStr → List (Option RStr × FeedSource)
  | [], _ => []
  | item :: items, p =>
      FeedConfigItem.collect_feeds_recursive item p ++
        FeedConfigItem.collectFeedsList items p
end

/-- FeedConfigItem::collect_feeds (src/config.rs). -/
def FeedConfigItem.collect_feeds (item : FeedConfigItem) : List (Option RStr × FeedSource) :=
  FeedConfigItem.collect_feeds_recursive item none

/-- A row of the `feeds` table (src/db.rs schema): id, group_title, title, url
(UNIQUE), site_url.  `last_fetched` is never touched by the sync and omitted. -/
structure FeedRow where
  id : Int
  group_title : RStr
  title : RStr
  url : RStr
  site_url : Option RStr
deriving DecidableEq, Repr

/-- The `feeds` table in insertion order, with the AUTOINCREMENT counter. -/
structure FeedsTable where
  rows : List FeedRow
  next_id : Int
deriving DecidableEq, Repr

/-- One element of the `feed_updates` vector built by sync_feeds_from_config
(src/db.rs): `(group_title, title, feed_url, site_url)`. -/
abbrev FeedUpdate := Option RStr × RStr × RStr × Option RStr

def updGroup (u : FeedUpdate) : Option RStr := u.1

def updTitle (u : FeedUpdate) : RStr := u.2.1

def updUrl (u : FeedUpdate) : RStr := u.2.2.1

def updSite (u : FeedUpdate) : Option RStr := u.2.2.2

/-- The `INSERT ... ON CONFLICT(url) DO UPDATE` statement of
sync_feeds_from_config (src/db.rs): update the row with this url in place if
one exists, else append a fresh row with the next id. -/
def upsertFeedRow (table : FeedsTable) (group_title title url : RStr)
    (site_url : Option RStr) : FeedsTable :=
  if table.rows.any (fun r => r.url == url) then
    { table with
      rows := table.rows.map (fun r =>
        if r.url = url then
          { r with
            group_title := group_title
            title := title
            site_url := site_url }
        else r) }
  else
    { table with
      rows := table.rows ++ [⟨table.next_id, group_title, title, url, site_url⟩]
      next_id := table.next_id + 1 }

/-- One iteration of the upsert loop of sync_feeds_from_config (src/db.rs);
`group_title.unwrap_or_default()` becomes `getD []`. -/
def applyFeedUpdate (table : FeedsTable) (u : FeedUpdate) : FeedsTable :=
  upsertFeedRow table ((updGroup u).getD []) (updTitle u) (updUrl u) (updSite u)

/-- db::sync_feeds_from_config (src/db.rs): collect the config's feeds, delete
the rows whose url no longer appears (cascade deletion of articles is keyed on
the deleted feed ids and is outside this table), then upsert every config feed
in order. -/
def sync_feeds_from_config (table : FeedsTable) (config_feeds : List FeedConfigItem) :
    FeedsTable :=
  let feed_updates : List FeedUpdate := config_feeds.flatMap (fun item =>
    (item.collect_feeds).map (fun gf => (gf.1, gf.2.title, gf.2.feed.getD gf.2.url,
      some gf.2.url)))
  let config_urls := feed_updates.map updUrl
  let table1 :=
    if config_urls ≠ [] then
      { table with rows := table.rows.filter (fun r => r.url ∈ config_urls) }
    else
      { table with rows := [] }
  feed_updates.foldl applyFeedUpdate table1

/-- Field update performed by the upsert's conflict branch (id and url are
untouched). -/
def setRowFields (r : FeedRow) (u : FeedUpdate) : FeedRow :=
  { r with
    group_title := (updGroup u).getD []
    title := updTitle u
    site_url := updSite u }

/-- The last element of `updates` carrying the given url, if any. -/
def lastUpdateFor (url : RStr) : List FeedUpdate → Option FeedUpdate
  | [] => none
  | u :: us =>
      match lastUpdateFor url us with
      | some v => some v
      | none => if updUrl u = url then some u else none

/-- Row list with every row overwritten by the last update carrying its url. -/
def applyAllUpdates (rows : List FeedRow) (updates : List FeedUpdate) : List FeedRow :=
  rows.map (fun r =>
    match lastUpdateFor r.url updates with
    | some u => setRowFields r u
    | none => r)

theorem setRowFields_url (r : FeedRow) (u : FeedUpdate) :
    (setRowFields r u).url = r.url := rfl

theorem setRowFields_comp (r : FeedRow) (u v : FeedUpdate) :
    setRowFields (setRowFields r u) v = setRowFields r v := rfl

theorem applyFeedUpdate_rows_update {t : FeedsTable} {u : FeedUpdate}
    (h : t.rows.any (fun r => r.url == updUrl u) = true) :
    (applyFeedUpdate t u).rows =
      t.rows.map (fun r => if r.url = updUrl u then setRowFields r u else r) := by
  rw [applyFeedUpdate, upsertFeedRow, if_pos h]
  rfl

theorem applyFeedUpdate_rows_insert {t : FeedsTable} {u : FeedUpdate}
    (h : t.rows.any (fun r => r.url == updUrl u) = false) :
    (applyFeedUpdate t u).rows =
      t.rows ++ [⟨t.next_id, (updGroup u).getD [], updTitle u, updUrl u, updSite u⟩] := by
  rw [applyFeedUpdate, upsertFeedRow, if_neg (by rw [h]; exact Bool.false_ne_true)]

theorem applyFeedUpdate_any {t : FeedsTable} {u : FeedUpdate} {x : RStr}
    (h : t.rows.any (fun r => r.url == x) = true) :
    (applyFeedUpdate t u).rows.any (fun r => r.url == x) = true := by
  obtain ⟨r, hr, hx⟩ := List.any_eq_true.mp h
  cases hcond : t.rows.any (fun r => r.url == updUrl u) with
  | true =>
      rw [applyFeedUpdate_rows_update hcond]
      refine List.any_eq_true.mpr ⟨_, List.mem_map_of_mem _ hr, ?_⟩
      by_cases he : r.url = updUrl u
      · rw [if_pos he, setRowFields_url]
        exact hx
      · rw [if_neg he]
        exact hx
  | false =>
      rw [applyFeedUpdate_rows_insert hcond]
      exact List.any_eq_true.mpr ⟨r, List.mem_append_left _ hr, hx⟩

theorem applyFeedUpdate_own_any (t : FeedsTable) (u : FeedUpdate) :
    (applyFeedUpdate t u).rows.any (fun r => r.url == updUrl u) = true := by
  cases hcond : t.rows.any (fun r => r.url == updUrl u) with
  | true => exact applyFeedUpdate_any hcond
  | false =>
      rw [applyFeedUpdate_rows_insert hcond]
      refine List.any_eq_true.mpr ⟨_, List.mem_append_right _ (List.mem_singleton_self _), ?_⟩
      simp

theorem foldl_applyFeedUpdate_any {us : List FeedUpdate} {t : FeedsTable} {x : RStr}
    (h : t.rows.any (fun r => r.url == x) = true) :
    (us.foldl applyFeedUpdate t).rows.any (fun r => r.url == x) = true := by
  induction us generalizing t with
  | nil => exact h
  | cons u us ih => exact ih (applyFeedUpdate_any h)

theorem foldl_applyFeedUpdate_presence {us : List FeedUpdate} {t : FeedsTable} :
    ∀ u ∈ us, (us.foldl applyFeedUpdate t).rows.any (fun r => r.url == updUrl u) = true := by
  induction us generalizing t with
  | nil => intro u hu; cases hu
  | cons u' us ih =>
      intro u hu
      rcases List.mem_cons.mp hu with rfl | hu'
      · rw [List.foldl_cons]
        exact foldl_applyFeedUpdate_any (applyFeedUpdate_own_any t u)
      · rw [List.foldl_cons]
        exact ih u hu'

theorem foldl_applyFeedUpdate_characterization :
    ∀ (updates : List FeedUpdate) (t : FeedsTable),
      (∀ u ∈ updates, t.rows.any (fun r => r.url == updUrl u) = true) →
      (updates.foldl applyFeedUpdate t).rows = applyAllUpdates t.rows updates := by
  intro updates
  induction updates with
  | nil =>
      intro t _
      simp [applyAllUpdates, lastUpdateFor]
  | cons u us ih =>
      intro t hpres
      have hu := hpres u (List.mem_cons_self _ _)
      have hrows := applyFeedUpdate_rows_update hu
      rw [List.foldl_cons]
      have hpres' : ∀ v ∈ us, (applyFeedUpdate t u).rows.any
          (fun r => r.url == updUrl v) = true :=
        fun v hv => applyFeedUpdate_any (hpres v (List.mem_cons_of_mem _ hv))
      rw [ih (applyFeedUpdate t u) hpres', hrows]
      rw [applyAllUpdates, applyAllUpdates, List.map_map]
      congr 1
      funext r
      simp only [Function.comp]
      by_cases he : r.url = updUrl u
      · rw [if_pos he, setRowFields_url, lastUpdateFor]
        cases hlast : lastUpdateFor r.url us with
        | some v => exact setRowFields_comp r u v
        | none => rw [if_pos he.symm]
      · rw [if_neg he, lastUpdateFor]
        cases hlast : lastUpdateFor r.url us with
        | some v => rfl
        | none => rw [if_neg (fun hx => he hx.symm)]

theorem foldl_applyFeedUpdate_untouched :
    ∀ (us : List FeedUpdate) (t : FeedsTable) (r : FeedRow),
      r ∈ (us.foldl applyFeedUpdate t).rows → lastUpdateFor r.url us = none →
      r ∈ t.rows := by
  intro us
  induction us with
  | nil => intro t r hr _; exact hr
  | cons u us ih =>
      intro t r hr hnone
      rw [lastUpdateFor] at hnone
      have hus : lastUpdateFor r.url us = none := by
        cases h : lastUpdateFor r.url us with
        | none => rfl
        | some v => rw [h] at hnone; cases hnone
      rw [hus] at hnone
      have hne : updUrl u ≠ r.url := by
        intro he
        rw [if_pos he] at hnone
        cases hnone
      rw [List.foldl_cons] at hr
      have hr' := ih (applyFeedUpdate t u) r hr hus
      cases hcond : t.rows.any (fun r => r.url == updUrl u) with
      | true =>
          rw [applyFeedUpdate_rows_update hcond] at hr'
          obtain ⟨r0, hr0, heq⟩ := List.mem_map.mp hr'
          by_cases he0 : r0.url = updUrl u
          · rw [if_pos he0] at heq
            subst heq
            rw [setRowFields_url] at hne
            exact absurd he0.symm hne
          · rw [if_neg he0] at heq
            subst heq
            exact hr0
      | false =>
          rw [applyFeedUpdate_rows_insert hcond] at hr'
          rcases List.mem_append.mp hr' with h0 | h0
          · exact h0
          · rw [List.mem_singleton] at h0
            subst h0
            exact absurd rfl hne

theorem applyFeedUpdate_own_fields {t : FeedsTable} {u : FeedUpdate} {r : FeedRow}
    (hr : r ∈ (applyFeedUpdate t u).rows) (hurl : updUrl u = r.url) :
    setRowFields r u = r := by
  cases hcond : t.rows.any (fun r => r.url == updUrl u) with
  | true =>
      rw [applyFeedUpdate_rows_update hcond] at hr
      obtain ⟨r0, hr0, heq⟩ := List.mem_map.mp hr
      by_cases he0 : r0.url = updUrl u
      · rw [if_pos he0] at heq
        subst heq
        exact setRowFields_comp r0 u u
      · rw [if_neg he0] at heq
        subst heq
        exact absurd hurl.symm he0
  | false =>
      rw [applyFeedUpdate_rows_insert hcond] at hr
      rcases List.mem_append.mp hr with h0 | h0
      · have hany : t.rows.any (fun q => q.url == updUrl u) = true :=
          List.any_eq_true.mpr ⟨r, h0, by simp [hurl]⟩
        rw [hcond] at hany
        cases hany
      · rw [List.mem_singleton] at h0
        subst h0
        rfl

theorem foldl_applyFeedUpdate_fields :
    ∀ (updates : List FeedUpdate) (t : FeedsTable) (r : FeedRow),
      r ∈ (updates.foldl applyFeedUpdate t).rows →
      ∀ v, lastUpdateFor r.url updates = some v → setRowFields r v = r := by
  intro updates
  induction updates with
  | nil => intro t r _ v hv; cases hv
  | cons u us ih =>
      intro t r hr v hv
      rw [List.foldl_cons] at hr
      rw [lastUpdateFor] at hv
      cases hlast : lastUpdateFor r.url us with
      | some w =>
          rw [hlast] at hv
          obtain rfl : w = v := by simpa using hv
          exact ih (applyFeedUpdate t u) r hr w hlast
      | none =>
          rw [hlast] at hv
          by_cases he : updUrl u = r.url
          · rw [if_pos he] at hv
            obtain rfl : u = v := by simpa using hv
            have hr' := foldl_applyFeedUpdate_untouched us (applyFeedUpdate t u) r hr hlast
            exact applyFeedUpdate_own_fields hr' he
          · rw [if_neg he] at hv
            cases hv

theorem foldl_applyFeedUpdate_urls :
    ∀ (updates : List FeedUpdate) (t : FeedsTable) (urls : List RStr),
      (∀ r ∈ t.rows, r.url ∈ urls) → (∀ u ∈ updates, updUrl u ∈ urls) →
      ∀ r ∈ (updates.foldl applyFeedUpdate t).rows, r.url ∈ urls := by
  intro updates
  induction updates with
  | nil => intro t urls hrows _ r hr; exact hrows r hr
  | cons u us ih =>
      intro t urls hrows hupd r hr
      rw [List.foldl_cons] at hr
      refine ih (applyFeedUpdate t u) urls ?_ (fun v hv => hupd v (List.mem_cons_of_mem _ hv)) r hr
      intro r0 hr0
      cases hcond : t.rows.any (fun q => q.url == updUrl u) with
      | true =>
          rw [applyFeedUpdate_rows_update hcond] at hr0
          obtain ⟨r1, hr1, heq⟩ := List.mem_map.mp hr0
          by_cases he1 : r1.url = updUrl u
          · rw [if_pos he1] at heq
            subst heq
            rw [setRowFields_url, he1]
            exact hupd u (List.mem_cons_self _ _)
          · rw [if_neg he1] at heq
            subst heq
            exact hrows r1 hr1
      | false =>
          rw [applyFeedUpdate_rows_insert hcond] at hr0
          rcases List.mem_append.mp hr0 with h0 | h0
          · exact hrows r0 h0
          · rw [List.mem_singleton] at h0
            subst h0
            exact hupd u (List.mem_cons_self _ _)

/-- The `feed_updates` vector of sync_feeds_from_config (src/db.rs). -/
def cfgUpdates (config_feeds : List FeedConfigItem) : List FeedUpdate :=
  config_feeds.flatMap (fun item =>
    (item.collect_feeds).map (fun gf => (gf.1, gf.2.title, gf.2.feed.getD gf.2.url,
      some gf.2.url)))

/-- The deletion step of sync_feeds_from_config (src/db.rs). -/
def syncDelete (table : FeedsTable) (config_feeds : List FeedConfigItem) : FeedsTable :=
  if (cfgUpdates config_feeds).map updUrl ≠ [] then
    { table with
      rows := table.rows.filter (fun r => r.url ∈ (cfgUpdates config_feeds).map updUrl) }
  else
    { table with rows := [] }

theorem sync_feeds_eq (table : FeedsTable) (config_feeds : List FeedConfigItem) :
    sync_feeds_from_config table config_feeds =
      (cfgUpdates config_feeds).foldl applyFeedUpdate (syncDelete table config_feeds) := rfl

/-- C6: running sync_feeds_from_config a second time with the same
configuration leaves the feeds table rows exactly as after the first run. -/
theorem C6_sync_idempotent (table : FeedsTable) (config_feeds : List FeedConfigItem) :
    (sync_feeds_from_config (sync_feeds_from_config table config_feeds) config_feeds).rows =
      (sync_feeds_from_config table config_feeds).rows := by
  simp only [sync_feeds_eq]
  by_cases hnil : cfgUpdates config_feeds = []
  · rw [hnil]
    simp only [List.foldl_nil, syncDelete, hnil, List.map_nil]
    simp
  · have hurls : (cfgUpdates config_feeds).map updUrl ≠ [] := by
      intro h
      exact hnil (List.map_eq_nil_iff.mp h)
    have hA : ∀ u ∈ cfgUpdates config_feeds, updUrl u ∈ (cfgUpdates config_feeds).map updUrl :=
      fun u hu => List.mem_map_of_mem _ hu
    have hB : ∀ r ∈ (syncDelete table config_feeds).rows,
        r.url ∈ (cfgUpdates config_feeds).map updUrl := by
      intro r hr
      rw [syncDelete, if_pos hurls] at hr
      have := List.mem_filter.mp hr
      simpa using this.2
    have hC : ∀ r ∈ ((cfgUpdates config_feeds).foldl applyFeedUpdate
        (syncDelete table config_feeds)).rows, r.url ∈ (cfgUpdates config_feeds).map updUrl :=
      foldl_applyFeedUpdate_urls (cfgUpdates config_feeds) (syncDelete table config_feeds)
        ((cfgUpdates config_feeds).map updUrl) hB hA
    have hdel : syncDelete ((cfgUpdates config_feeds).foldl applyFeedUpdate
          (syncDelete table config_feeds)) config_feeds =
        (cfgUpdates config_feeds).foldl applyFeedUpdate (syncDelete table config_feeds) := by
      rw [syncDelete, if_pos hurls]
      have hfd : ((cfgUpdates config_feeds).foldl applyFeedUpdate
          (syncDelete table config_feeds)).rows.filter
            (fun r => r.url ∈ (cfgUpdates config_feeds).map updUrl) =
          ((cfgUpdates config_feeds).foldl applyFeedUpdate
            (syncDelete table config_feeds)).rows := by
        apply List.filter_eq_self.mpr
        intro r hr
        simpa using hC r hr
      rw [hfd]
    rw [hdel]
    have hpres : ∀ u ∈ cfgUpdates config_feeds,
        ((cfgUpdates config_feeds).foldl applyFeedUpdate
          (syncDelete table config_feeds)).rows.any (fun r => r.url == updUrl u) = true :=
      foldl_applyFeedUpdate_presence
    rw [foldl_applyFeedUpdate_characterization (cfgUpdates config_feeds) _ hpres]
    rw [applyAllUpdates]
    have hfix : ∀ r ∈ ((cfgUpdates config_feeds).foldl applyFeedUpdate
        (syncDelete table config_feeds)).rows,
        (match lastUpdateFor r.url (cfgUpdates config_feeds) with
          | some u => setRowFields r u
          | none => r) = r := by
      intro r hr
      cases hl : lastUpdateFor r.url (cfgUpdates config_feeds) with
      | some v =>
          exact foldl_applyFeedUpdate_fields (cfgUpdates config_feeds)
            (syncDelete table config_feeds) r hr v hl
      | none => rfl
    rw [List.map_congr_left hfix]
    simp


/-- The inner `for j` loop of App::remove_feed_recursive (src/app.rs): scan a
group's item list for a DIRECT standalone child whose feed url matches, and
remove the first one found.  Nested groups are skipped by this pass. -/
def removeDirectFeed : List FeedConfigItem → RStr → Bool × List FeedConfigItem
  | [], _ => (false, [])
  | FeedConfigItem.Standalone fs :: items, url =>
      if fs.feed = some url then (true, items)
      else
        ((removeDirectFeed items url).1,
          FeedConfigItem.Standalone fs :: (removeDirectFeed items url).2)
  | FeedConfigItem.Group t g :: items, url =>
      ((removeDirectFeed items url).1,
        FeedConfigItem.Group t g :: (removeDirectFeed items url).2)

mutual
/-- The body of the `for i` loop of App::remove_feed_recursive (src/app.rs)
for one item: `some none` means the item itself is removed (a standalone
match), `some (some it)` means the removal happened inside the group and the
item is replaced, `none` means not found here. -/
def removeItemAttempt : FeedConfigItem → RStr → Option (Option FeedConfigItem)
  | FeedConfigItem.Standalone fs, url =>
      if fs.feed = some url then some none else none
  | FeedConfigItem.Group t g, url =>
      if (removeDirectFeed g url).1 then
        some (some (FeedConfigItem.Group t (removeDirectFeed g url).2))
      else if (remove_feed_recursive g url).1 then
        some (some (FeedConfigItem.Group t (remove_feed_recursive g url).2))
      else none
/-- App::remove_feed_recursive (src/app.rs): walk the item list; a standalone
match is removed on the spot; for a group, first scan its direct standalone
children, then recurse into its contents, then move on to the next sibling.
Returns whether a feed was removed together with the updated list. -/
def remove_feed_recursive : List FeedConfigItem → RStr → Bool × List FeedConfigItem
  | [], _ => (false, [])
  | item :: items, url =>
      match removeItemAttempt item url with
      | some none => (true, items)
      | some (some it) => (true, it :: items)
      | none =>
          ((remove_feed_recursive items url).1, item :: (remove_feed_recursive items url).2)
end

mutual
/-- Standalone sources of one item, depth-first (`collect_feeds` order). -/
def dfsItem : FeedConfigItem → List FeedSource
  | FeedConfigItem.Standalone fs => [fs]
  | FeedConfigItem.Group _ g => dfsFeedSources g
/-- All standalone feed sources of a config forest in depth-first pre-order. -/
def dfsFeedSources : List FeedConfigItem → List FeedSource
  | [] => []
  | item :: items => dfsItem item ++ dfsFeedSources items
end

/-- The direct standalone children of an item list. -/
def directFeeds : List FeedConfigItem → List FeedSource
  | [] => []
  | FeedConfigItem.Standalone fs :: items => fs :: directFeeds items
  | FeedConfigItem.Group _ _ :: items => directFeeds items

mutual
/-- Candidates examined inside one item by remove_feed_recursive, in order:
for a group, its direct standalone children come before its full contents. -/
def searchOrderItem : FeedConfigItem → List FeedSource
  | FeedConfigItem.Standalone fs => [fs]
  | FeedConfigItem.Group _ g => directFeeds g ++ searchOrderFeeds g
/-- The candidate order actually searched by remove_feed_recursive. -/
def searchOrderFeeds : List FeedConfigItem → List FeedSource
  | [] => []
  | item :: items => searchOrderItem item ++ searchOrderFeeds items
end

/-- `l'` is `l` with exactly one standalone feed (whose feed url is `url`)
deleted somewhere in the tree; every group node is kept in place. -/
inductive RemovedFeed (url : RStr) :
    FeedSource → List FeedConfigItem → List FeedConfigItem → Prop where
  | here : ∀ (fs : FeedSource) (rest : List FeedConfigItem),
      fs.feed = some url → RemovedFeed url fs (FeedConfigItem.Standalone fs :: rest) rest
  | there : ∀ (fs : FeedSource) (item : FeedConfigItem) (l l' : List FeedConfigItem),
      RemovedFeed url fs l l' → RemovedFeed url fs (item :: l) (item :: l')
  | inside : ∀ (fs : FeedSource) (t : RStr) (g g' rest : List FeedConfigItem),
      RemovedFeed url fs g g' →
      RemovedFeed url fs (FeedConfigItem.Group t g :: rest)
        (FeedConfigItem.Group t g' :: rest)

mutual
/-- Group-node count of one item (the item itself plus nested groups). -/
def countGroupsItem : FeedConfigItem → Nat
  | FeedConfigItem.Standalone _ => 0
  | FeedConfigItem.Group _ g => 1 + countGroups g
/-- Number of group nodes in a config forest, nested groups included. -/
def countGroups : List FeedConfigItem → Nat
  | [] => 0
  | item :: items => countGroupsItem item + countGroups items
end

theorem RemovedFeed.countGroups_eq {url : RStr} {fs : FeedSource}
    {l l' : List FeedConfigItem} (h : RemovedFeed url fs l l') :
    countGroups l' = countGroups l := by
  induction h with
  | here => simp [countGroups, countGroupsItem]
  | there =>
      rename_i item l l' h ih
      simp [countGroups, ih]
  | inside =>
      rename_i t g g' rest h ih
      simp [countGroups, countGroupsItem, ih]

theorem directFeeds_subset_dfs {fs : FeedSource} :
    ∀ {l : List FeedConfigItem}, fs ∈ directFeeds l → fs ∈ dfsFeedSources l
  | [], h => by cases h
  | FeedConfigItem.Standalone s :: items, h => by
      rw [directFeeds] at h
      rw [dfsFeedSources, dfsItem]
      rcases List.mem_cons.mp h with rfl | h'
      · exact List.mem_append_left _ (List.mem_singleton_self _)
      · exact List.mem_append_right _ (directFeeds_subset_dfs h')
  | FeedConfigItem.Group t g :: items, h => by
      rw [directFeeds] at h
      rw [dfsFeedSources]
      exact List.mem_append_right _ (directFeeds_subset_dfs h)

mutual
theorem searchOrderItem_mem_iff {fs : FeedSource} :
    ∀ (item : FeedConfigItem), fs ∈ searchOrderItem item ↔ fs ∈ dfsItem item
  | FeedConfigItem.Standalone s => by rw [searchOrderItem, dfsItem]
  | FeedConfigItem.Group t g => by
      rw [searchOrderItem, dfsItem]
      rw [List.mem_append]
      constructor
      · rintro (h | h)
        · exact directFeeds_subset_dfs h
        · exact (searchOrder_mem_iff g).mp h
      · intro h
        exact Or.inr ((searchOrder_mem_iff g).mpr h)
theorem searchOrder_mem_iff {fs : FeedSource} :
    ∀ (l : List FeedConfigItem), fs ∈ searchOrderFeeds l ↔ fs ∈ dfsFeedSources l
  | [] => Iff.rfl
  | item :: items => by
      rw [searchOrderFeeds, dfsFeedSources, List.mem_append, List.mem_append]
      rw [searchOrderItem_mem_iff item, searchOrder_mem_iff items]
end

theorem removeDirectFeed_spec (l : List FeedConfigItem) (url : RStr) :
    ((removeDirectFeed l url).1 = false → (removeDirectFeed l url).2 = l ∧
      (directFeeds l).find? (fun s => s.feed == some url) = none) ∧
    ((removeDirectFeed l url).1 = true →
      ∃ fs, RemovedFeed url fs l (removeDirectFeed l url).2 ∧
        (directFeeds l).find? (fun s => s.feed == some url) = some fs) := by
  induction l with
  | nil => exact ⟨fun _ => ⟨rfl, rfl⟩, fun h => by cases h⟩
  | cons item items ih =>
      cases item with
      | Standalone fs =>
          by_cases hm : fs.feed = some url
          · constructor
            · intro h
              rw [removeDirectFeed, if_pos hm] at h
              cases h
            · intro _
              refine ⟨fs, ?_, ?_⟩
              · rw [removeDirectFeed, if_pos hm]
                exact RemovedFeed.here fs items hm
              · rw [directFeeds]
                exact List.find?_cons_of_pos _ (by simp [hm])
          · constructor
            · intro h
              rw [removeDirectFeed, if_neg hm] at h
              obtain ⟨h2, hfind⟩ := ih.1 h
              constructor
              · rw [removeDirectFeed, if_neg hm]
                rw [h2]
              · rw [directFeeds, List.find?_cons_of_neg _ (by simp [hm])]
                exact hfind
            · intro h
              rw [removeDirectFeed, if_neg hm] at h
              obtain ⟨fs', hrel, hfind⟩ := ih.2 h
              refine ⟨fs', ?_, ?_⟩
              · rw [removeDirectFeed, if_neg hm]
                exact RemovedFeed.there fs' _ _ _ hrel
              · rw [directFeeds, List.find?_cons_of_neg _ (by simp [hm])]
                exact hfind
      | Group t g =>
          constructor
          · intro h
            rw [removeDirectFeed] at h
            obtain ⟨h2, hfind⟩ := ih.1 h
            constructor
            · rw [removeDirectFeed, h2]
            · rw [directFeeds]
              exact hfind
          · intro h
            rw [removeDirectFeed] at h
            obtain ⟨fs', hrel, hfind⟩ := ih.2 h
            refine ⟨fs', ?_, ?_⟩
            · rw [removeDirectFeed]
              exact RemovedFeed.there fs' _ _ _ hrel
            · rw [directFeeds]
              exact hfind

mutual
theorem removeItemAttempt_spec : ∀ (item : FeedConfigItem) (url : RStr),
    (removeItemAttempt item url = none →
      (searchOrderItem item).find? (fun s => s.feed == some url) = none) ∧
    (removeItemAttempt item url = some none →
      ∃ fs, item = FeedConfigItem.Standalone fs ∧ fs.feed = some url ∧
        (searchOrderItem item).find? (fun s => s.feed == some url) = some fs) ∧
    (∀ it, removeItemAttempt item url = some (some it) →
      ∃ fs t g g', item = FeedConfigItem.Group t g ∧ it = FeedConfigItem.Group t g' ∧
        RemovedFeed url fs g g' ∧
        (searchOrderItem item).find? (fun s => s.feed == some url) = some fs)
  | FeedConfigItem.Standalone fs, url => by
      by_cases hm : fs.feed = some url
      · refine ⟨?_, ?_, ?_⟩
        · intro h
          rw [removeItemAttempt, if_pos hm] at h
          cases h
        · intro _
          refine ⟨fs, rfl, hm, ?_⟩
          rw [searchOrderItem]
          exact List.find?_cons_of_pos _ (by simp [hm])
        · intro it h
          rw [removeItemAttempt, if_pos hm] at h
          simp at h
      · refine ⟨?_, ?_, ?_⟩
        · intro _
          rw [searchOrderItem, List.find?_cons_of_neg _ (by simp [hm])]
          rfl
        · intro h
          rw [removeItemAttempt, if_neg hm] at h
          cases h
        · intro it h
          rw [removeItemAttempt, if_neg hm] at h
          cases h
  | FeedConfigItem.Group t g, url => by
      have hd := removeDirectFeed_spec g url
      have hg := remove_feed_spec g url
      cases hdf : (removeDirectFeed g url).1 with
      | true =>
          obtain ⟨fs, hrel, hfind⟩ := hd.2 hdf
          refine ⟨?_, ?_, ?_⟩
          · intro h
            simp [removeItemAttempt, hdf] at h
          · intro h
            simp [removeItemAttempt, hdf] at h
          · intro it h
            simp only [removeItemAttempt, hdf, if_true] at h
            refine ⟨fs, t, g, (removeDirectFeed g url).2, rfl, ?_, hrel, ?_⟩
            · simpa using h.symm
            · rw [searchOrderItem, List.find?_append, hfind]
              rfl
      | false =>
          obtain ⟨hunch, hfnone⟩ := hd.1 hdf
          cases hrg : (remove_feed_recursive g url).1 with
          | true =>
              obtain ⟨fs, hrel, hfind⟩ := hg.2 hrg
              refine ⟨?_, ?_, ?_⟩
              · intro h
                simp [removeItemAttempt, hdf, hrg] at h
              · intro h
                simp [removeItemAttempt, hdf, hrg] at h
              · intro it h
                simp only [removeItemAttempt, hdf, hrg] at h
                simp only [Bool.false_eq_true, if_false, if_true] at h
                refine ⟨fs, t, g, (remove_feed_recursive g url).2, rfl, ?_, hrel, ?_⟩
                · simpa using h.symm
                · rw [searchOrderItem, List.find?_append, hfnone, hfind]
                  rfl
          | false =>
              obtain ⟨hgunch, hgnone⟩ := hg.1 hrg
              refine ⟨?_, ?_, ?_⟩
              · intro _
                rw [searchOrderItem, List.find?_append, hfnone, hgnone]
                rfl
              · intro h
                simp [removeItemAttempt, hdf, hrg] at h
              · intro it h
                simp [removeItemAttempt, hdf, hrg] at h
theorem remove_feed_spec : ∀ (l : List FeedConfigItem) (url : RStr),
    ((remove_feed_recursive l url).1 = false →
      (remove_feed_recursive l url).2 = l ∧
      (searchOrderFeeds l).find? (fun s => s.feed == some url) = none) ∧
    ((remove_feed_recursive l url).1 = true →
      ∃ fs, RemovedFeed url fs l (remove_feed_recursive l url).2 ∧
        (searchOrderFeeds l).find? (fun s => s.feed == some url) = some fs)
  | [], url => ⟨fun _ => ⟨rfl, rfl⟩, fun h => by cases h⟩
  | item :: items, url => by
      have hi := removeItemAttempt_spec item url
      have ht := remove_feed_spec items url
      cases hatt : removeItemAttempt item url with
      | none =>
          have hinone := hi.1 hatt
          constructor
          · intro h
            simp only [remove_feed_recursive, hatt] at h ⊢
            obtain ⟨h2, hfind⟩ := ht.1 h
            constructor
            · rw [h2]
            · rw [searchOrderFeeds, List.find?_append, hinone, hfind]
              rfl
          · intro h
            simp only [remove_feed_recursive, hatt] at h ⊢
            obtain ⟨fs, hrel, hfind⟩ := ht.2 h
            refine ⟨fs, RemovedFeed.there fs _ _ _ hrel, ?_⟩
            rw [searchOrderFeeds, List.find?_append, hinone, hfind]
            rfl
      | some o =>
          cases o with
          | none =>
              obtain ⟨fs, hitem, hm, hfind⟩ := hi.2.1 hatt
              constructor
              · intro h
                simp [remove_feed_recursive, hatt] at h
              · intro _
                simp only [remove_feed_recursive, hatt]
                refine ⟨fs, ?_, ?_⟩
                · rw [hitem]
                  exact RemovedFeed.here fs items hm
                · rw [searchOrderFeeds, List.find?_append, hfind]
                  rfl
          | some it =>
              obtain ⟨fs, t, g, g', hitem, hit, hrel, hfind⟩ := hi.2.2 it hatt
              constructor
              · intro h
                simp [remove_feed_recursive, hatt] at h
              · intro _
                simp only [remove_feed_recursive, hatt]
                refine ⟨fs, ?_, ?_⟩
                · rw [hitem, hit]
                  exact RemovedFeed.inside fs t g g' items hrel
                · rw [searchOrderFeeds, List.find?_append, hfind]
                  rfl
end

/-- C7 (amended): removal by feed-URL key matches only the optional feed-URL
field — an item without it never matches, even if its display url equals the
key — returns found exactly when a matching standalone exists anywhere,
removes exactly one matching standalone (the first in its two-phase traversal,
which scans a group's direct standalone children before the group's nested
contents), never prunes a group, and leaves the tree unchanged on not-found. -/
theorem C7_remove_feed_by_key :
    (∀ (l : List FeedConfigItem) (url : RStr),
      (remove_feed_recursive l url).1 = true ↔
        ∃ fs ∈ dfsFeedSources l, fs.feed = some url) ∧
    (∀ (l : List FeedConfigItem) (url : RStr),
      (remove_feed_recursive l url).1 = false → (remove_feed_recursive l url).2 = l) ∧
    (∀ (l : List FeedConfigItem) (url : RStr),
      (remove_feed_recursive l url).1 = true →
      ∃ fs, RemovedFeed url fs l (remove_feed_recursive l url).2 ∧
        (searchOrderFeeds l).find? (fun s => s.feed == some url) = some fs) ∧
    (∀ (url : RStr) (fs : FeedSource) (l l' : List FeedConfigItem),
      RemovedFeed url fs l l' → countGroups l' = countGroups l) := by
  refine ⟨?_, fun l url h => ((remove_feed_spec l url).1 h).1,
    fun l url h => (remove_feed_spec l url).2 h,
    fun url fs l l' h => h.countGroups_eq⟩
  intro l url
  constructor
  · intro h
    obtain ⟨fs, hrel, hfind⟩ := (remove_feed_spec l url).2 h
    have hmem := List.mem_of_find?_eq_some hfind
    have hp := List.find?_some hfind
    exact ⟨fs, (searchOrder_mem_iff l).mp hmem, by simpa using hp⟩
  · rintro ⟨fs, hmem, hfeed⟩
    cases hfound : (remove_feed_recursive l url).1 with
    | true => rfl
    | false =>
        obtain ⟨_, hfind⟩ := (remove_feed_spec l url).1 hfound
        have hnp := List.find?_eq_none.mp hfind fs ((searchOrder_mem_iff l).mpr hmem)
        simp [hfeed] at hnp

/-- Nested standalone feed used by the C7 counterexample. -/
def c7hX : FeedSource := ⟨"h".data, "uh".data, some "X".data⟩

/-- Direct standalone feed used by the C7 counterexample. -/
def c7sX : FeedSource := ⟨"s".data, "us".data, some "X".data⟩

/-- Counterexample forest: inside group G, the subgroup H (holding a match)
precedes a direct standalone match. -/
def c7ex : List FeedConfigItem :=
  [FeedConfigItem.Group "G".data
    [FeedConfigItem.Group "H".data [FeedConfigItem.Standalone c7hX],
      FeedConfigItem.Standalone c7sX]]

/-- Counterexample for C7 as stated: the first match of a depth-first search
is the nested `c7hX`, but the code removes the direct child `c7sX` and leaves
`c7hX` in place — the removal order is not depth-first. -/
theorem C7_counterexample :
    (dfsFeedSources c7ex).find? (fun s => s.feed == some "X".data) = some c7hX ∧
    remove_feed_recursive c7ex "X".data =
      (true, [FeedConfigItem.Group "G".data
        [FeedConfigItem.Group "H".data [FeedConfigItem.Standalone c7hX]]]) ∧
    c7hX ∈ dfsFeedSources (remove_feed_recursive c7ex "X".data).2 :=
  ⟨by decide, by decide, by decide⟩

/-- Concrete forest for the C7 witness: a standalone feed without a feed-URL
field (display url "ua") and a group holding a matching feed. -/
def c7wit : List FeedConfigItem :=
  [FeedConfigItem.Standalone ⟨"a".data, "ua".data, none⟩,
    FeedConfigItem.Group "G".data
      [FeedConfigItem.Standalone ⟨"x".data, "ux".data, some "X".data⟩]]

/-- Witness for C7: key "X" is found and removed (one standalone, group kept);
key "ua" — the display url of a feed without a feed-URL field — is not found
and the tree is unchanged. -/
theorem C7_witness :
    (remove_feed_recursive c7wit "X".data).1 = true ∧
    (∃ fs, RemovedFeed "X".data fs c7wit (remove_feed_recursive c7wit "X".data).2 ∧
      (searchOrderFeeds c7wit).find? (fun s => s.feed == some "X".data) = some fs) ∧
    (remove_feed_recursive c7wit "ua".data).1 = false ∧
    (remove_feed_recursive c7wit "ua".data).2 = c7wit :=
  ⟨by decide, C7_remove_feed_by_key.2.2.1 c7wit "X".data (by decide), by decide,
    C7_remove_feed_by_key.2.1 c7wit "ua".data (by decide)⟩

/-- `pathLe` is total: Rust `String` ordering compares any two paths. -/
theorem pathLe_total : ∀ a b : RStr, pathLe a b = true ∨ pathLe b a = true := by
  intro a
  induction a with
  | nil => intro b; exact Or.inl rfl
  | cons x xs ih =>
      intro b
      cases b with
      | nil => exact Or.inr rfl
      | cons y ys =>
          rcases lt_trichotomy x y with h | h | h
          · exact Or.inl (by rw [pathLe, if_pos h])
          · subst h
            rcases ih ys with h' | h'
            · exact Or.inl (by rw [pathLe, if_neg (lt_irrefl x), if_neg (lt_irrefl x)]; exact h')
            · exact Or.inr (by rw [pathLe, if_neg (lt_irrefl x), if_neg (lt_irrefl x)]; exact h')
          · exact Or.inr (by rw [pathLe, if_pos h])

/-- `pathLe` is transitive. -/
theorem pathLe_trans : ∀ a b c : RStr,
    pathLe a b = true → pathLe b c = true → pathLe a c = true := by
  intro a
  induction a with
  | nil => intro b c _ _; rfl
  | cons x xs ih =>
      intro b c hab hbc
      cases b with
      | nil => simp [pathLe] at hab
      | cons y ys =>
          cases c with
          | nil => simp [pathLe] at hbc
          | cons z zs =>
              rw [pathLe] at hab hbc ⊢
              by_cases h1 : x < y
              · rw [if_pos h1] at hab
                by_cases h2 : y < z
                · rw [if_pos (lt_trans h1 h2)]
                · by_cases h4 : z < y
                  · rw [if_neg h2, if_pos h4] at hbc; cases hbc
                  · have hyz : y = z := le_antisymm (le_of_not_lt h4) (le_of_not_lt h2)
                    subst hyz
                    rw [if_pos h1]
              · rw [if_neg h1] at hab
                by_cases h1' : y < x
                · rw [if_pos h1'] at hab; cases hab
                · rw [if_neg h1'] at hab
                  have hxy : x = y := le_antisymm (le_of_not_lt h1') (le_of_not_lt h1)
                  subst hxy
                  by_cases h2 : x < z
                  · rw [if_pos h2]
                  · rw [if_neg h2] at hbc ⊢
                    by_cases h3 : z < x
                    · rw [if_pos h3] at hbc; cases hbc
                    · rw [if_neg h3] at hbc ⊢
                      exact ih ys zs hab hbc

/-- `pathLe` is antisymmetric. -/
theorem pathLe_antisymm : ∀ a b : RStr,
    pathLe a b = true → pathLe b a = true → a = b := by
  intro a
  induction a with
  | nil =>
      intro b hab hba
      cases b with
      | nil => rfl
      | cons y ys => simp [pathLe] at hba
  | cons x xs ih =>
      intro b hab hba
      cases b with
      | nil => simp [pathLe] at hab
      | cons y ys =>
          rw [pathLe] at hab hba
          by_cases h1 : x < y
          · rw [if_neg (lt_asymm h1), if_pos h1] at hba; cases hba
          · by_cases h2 : y < x
            · rw [if_neg h1, if_pos h2] at hab; cases hab
            · have hxy : x = y := le_antisymm (le_of_not_lt h2) (le_of_not_lt h1)
              subst hxy
              rw [if_neg h1, if_neg h2] at hab hba
              rw [ih ys hab hba]

instance : IsTotal RStr pathLeP := ⟨pathLe_total⟩

instance : IsTrans RStr pathLeP := ⟨pathLe_trans⟩

instance : IsAntisymm RStr pathLeP := ⟨pathLe_antisymm⟩

/-- Membership in the `pathKeys` accumulation: a path is collected iff it was
already in the accumulator or is the non-empty group title of some feed. -/
theorem pathKeys_foldl_mem (x : RStr) : ∀ (feeds : List Feed) (acc : List RStr),
    (x ∈ feeds.foldl (fun acc f => if f.group_title = [] then acc
      else if f.group_title ∈ acc then acc else acc ++ [f.group_title]) acc) ↔
    x ∈ acc ∨ (¬ x = [] ∧ ∃ f ∈ feeds, f.group_title = x) := by
  intro feeds
  induction feeds with
  | nil => intro acc; simp
  | cons f fs ih =>
      intro acc
      rw [List.foldl_cons]
      by_cases h1 : f.group_title = []
      · rw [if_pos h1, ih]
        simp only [List.mem_cons]
        constructor
        · rintro (h | ⟨hx, g, hg, hgt⟩)
          · exact Or.inl h
          · exact Or.inr ⟨hx, g, Or.inr hg, hgt⟩
        · rintro (h | ⟨hx, g, rfl | hg, hgt⟩)
          · exact Or.inl h
          · subst hgt; exact absurd h1 hx
          · exact Or.inr ⟨hx, g, hg, hgt⟩
      · rw [if_neg h1]
        by_cases h2 : f.group_title ∈ acc
        · rw [if_pos h2, ih]
          simp only [List.mem_cons]
          constructor
          · rintro (h | ⟨hx, g, hg, hgt⟩)
            · exact Or.inl h
            · exact Or.inr ⟨hx, g, Or.inr hg, hgt⟩
          · rintro (h | ⟨hx, g, rfl | hg, hgt⟩)
            · exact Or.inl h
            · exact Or.inl (hgt ▸ h2)
            · exact Or.inr ⟨hx, g, hg, hgt⟩
        · rw [if_neg h2, ih]
          simp only [List.mem_append, List.mem_cons, List.not_mem_nil, or_false]
          constructor
          · rintro ((h | h) | ⟨hx, g, hg, hgt⟩)
            · exact Or.inl h
            · exact Or.inr ⟨h ▸ h1, f, Or.inl rfl, h.symm⟩
            · exact Or.inr ⟨hx, g, Or.inr hg, hgt⟩
          · rintro (h | ⟨hx, g, rfl | hg, hgt⟩)
            · exact Or.inl (Or.inl h)
            · exact Or.inl (Or.inr hgt.symm)
            · exact Or.inr ⟨hx, g, hg, hgt⟩

/-- The `pathKeys` accumulation preserves freedom from duplicates. -/
theorem pathKeys_foldl_nodup : ∀ (feeds : List Feed) (acc : List RStr), acc.Nodup →
    (feeds.foldl (fun acc f => if f.group_title = [] then acc
      else if f.group_title ∈ acc then acc else acc ++ [f.group_title]) acc).Nodup := by
  intro feeds
  induction feeds with
  | nil => intro acc h; exact h
  | cons f fs ih =>
      intro acc h
      rw [List.foldl_cons]
      by_cases h1 : f.group_title = []
      · rw [if_pos h1]; exact ih acc h
      · rw [if_neg h1]
        by_cases h2 : f.group_title ∈ acc
        · rw [if_pos h2]; exact ih acc h
        · rw [if_neg h2]
          exact ih _ (by simp [List.nodup_append, h, h2])

/-- One step of the `addEmptyGroups` accumulation. -/
theorem addEmptyGroups_cons (acc : List RStr) (g : RStr) (gs : List RStr) :
    addEmptyGroups acc (g :: gs) =
      addEmptyGroups (if g ∈ acc then acc else acc ++ [g]) gs := rfl

/-- Membership after appending the empty-group paths: the union of the two
path sets. -/
theorem addEmptyGroups_mem (x : RStr) : ∀ (eg : List RStr) (acc : List RStr),
    x ∈ addEmptyGroups acc eg ↔ x ∈ acc ∨ x ∈ eg := by
  intro eg
  induction eg with
  | nil => intro acc; simp [addEmptyGroups]
  | cons g gs ih =>
      intro acc
      rw [addEmptyGroups_cons, ih]
      by_cases h : g ∈ acc
      · rw [if_pos h]
        simp only [List.mem_cons]
        constructor
        · rintro (h' | h')
          · exact Or.inl h'
          · exact Or.inr (Or.inr h')
        · rintro (h' | rfl | h')
          · exact Or.inl h'
          · exact Or.inl h
          · exact Or.inr h'
      · rw [if_neg h]
        simp only [List.mem_append, List.mem_cons, List.not_mem_nil, or_false]
        constructor
        · rintro ((h' | h') | h')
          · exact Or.inl h'
          · exact Or.inr (Or.inl h')
          · exact Or.inr (Or.inr h')
        · rintro (h' | h' | h')
          · exact Or.inl (Or.inl h')
          · exact Or.inl (Or.inr h')
          · exact Or.inr h'

/-- `addEmptyGroups` preserves freedom from duplicates. -/
theorem addEmptyGroups_nodup : ∀ (eg : List RStr) (acc : List RStr), acc.Nodup →
    (addEmptyGroups acc eg).Nodup := by
  intro eg
  induction eg with
  | nil => intro acc h; exact h
  | cons g gs ih =>
      intro acc h
      rw [addEmptyGroups_cons]
      by_cases hg : g ∈ acc
      · rw [if_pos hg]; exact ih acc h
      · rw [if_neg hg]
        exact ih _ (by simp [List.nodup_append, h, hg])

/-- The sorted, duplicate-free path list that `build_group_tree` inserts from
is the same for any two permutations of the feed list: the collected path set
is order-independent and the lexicographic sort fixes a canonical order. -/
theorem allPaths_perm_eq {feeds feeds' : List Feed} (eg : List RStr)
    (hp : feeds.Perm feeds') :
    List.insertionSort pathLeP (addEmptyGroups (pathKeys feeds) eg) =
    List.insertionSort pathLeP (addEmptyGroups (pathKeys feeds') eg) := by
  have h1 : (addEmptyGroups (pathKeys feeds) eg).Nodup :=
    addEmptyGroups_nodup eg _ (pathKeys_foldl_nodup feeds [] List.nodup_nil)
  have h2 : (addEmptyGroups (pathKeys feeds') eg).Nodup :=
    addEmptyGroups_nodup eg _ (pathKeys_foldl_nodup feeds' [] List.nodup_nil)
  have hmem : ∀ x, x ∈ addEmptyGroups (pathKeys feeds) eg ↔
      x ∈ addEmptyGroups (pathKeys feeds') eg := by
    intro x
    rw [addEmptyGroups_mem, addEmptyGroups_mem, pathKeys, pathKeys,
      pathKeys_foldl_mem, pathKeys_foldl_mem]
    constructor
    · rintro ((h | ⟨hx, g, hg, hgt⟩) | h)
      · exact absurd h (List.not_mem_nil x)
      · exact Or.inl (Or.inr ⟨hx, g, hp.mem_iff.mp hg, hgt⟩)
      · exact Or.inr h
    · rintro ((h | ⟨hx, g, hg, hgt⟩) | h)
      · exact absurd h (List.not_mem_nil x)
      · exact Or.inl (Or.inr ⟨hx, g, hp.mem_iff.mpr hg, hgt⟩)
      · exact Or.inr h
  exact List.eq_of_perm_of_sorted
    ((List.perm_insertionSort pathLeP _).trans
      (((List.perm_ext_iff_of_nodup h1 h2).mpr hmem).trans
        (List.perm_insertionSort pathLeP _).symm))
    (List.sorted_insertionSort pathLeP _) (List.sorted_insertionSort pathLeP _)

mutual
/-- Trees equal up to the order of the feed lists stored in each node: same
titles, full paths and unread counts, same child structure, and at every node
the two feed lists are permutations of each other. -/
inductive NodeFeedPerm : GroupNode → GroupNode → Prop where
  | mk : ∀ {t p : RStr} {u : Nat} {fs fs' : List Feed} {ch ch' : List GroupNode},
      fs.Perm fs' → ForestFeedPerm ch ch' →
      NodeFeedPerm (GroupNode.mk t p u fs ch) (GroupNode.mk t p u fs' ch')
inductive ForestFeedPerm : List GroupNode → List GroupNode → Prop where
  | nil : ForestFeedPerm [] []
  | cons : ∀ {n n' : GroupNode} {l l' : List GroupNode},
      NodeFeedPerm n n' → ForestFeedPerm l l' → ForestFeedPerm (n :: l) (n' :: l')
end

/-- `ForestFeedPerm` is preserved by appending related forests. -/
theorem ForestFeedPerm.append : ∀ {l₁ l₂ m₁ m₂ : List GroupNode},
    ForestFeedPerm l₁ l₂ → ForestFeedPerm m₁ m₂ → ForestFeedPerm (l₁ ++ m₁) (l₂ ++ m₂) := by
  intro l₁
  induction l₁ with
  | nil =>
      intro l₂ m₁ m₂ h hm
      cases h
      exact hm
  | cons n l ih =>
      intro l₂ m₁ m₂ h hm
      cases h with
      | cons hn hl => exact ForestFeedPerm.cons hn (ih hl hm)

/-- Related forests agree on the position of the first node with a given
title (the sibling lookup of `insert_into_tree`). -/
theorem forestFeedPerm_listPosition : ∀ {ns ns' : List GroupNode},
    ForestFeedPerm ns ns' → ∀ (c : RStr),
    listPosition (fun n => n.title == c) ns = listPosition (fun n => n.title == c) ns' := by
  intro ns
  induction ns with
  | nil =>
      intro ns' h c
      cases h
      rfl
  | cons n l ih =>
      intro ns' h c
      cases h with
      | cons hn hl =>
          cases hn with
          | mk hfs hch =>
              simp only [listPosition]
              rw [ih hl c]
              rfl

/-- `List.modify` carries `ForestFeedPerm` through when the two modification
functions send related nodes to related nodes. -/
theorem ForestFeedPerm.modify {f g : GroupNode → GroupNode}
    (hfg : ∀ (n n' : GroupNode), NodeFeedPerm n n' → NodeFeedPerm (f n) (g n')) :
    ∀ {ns : List GroupNode} (pos : Nat) {ns' : List GroupNode}, ForestFeedPerm ns ns' →
      ForestFeedPerm (List.modify f pos ns) (List.modify g pos ns') := by
  intro ns
  induction ns with
  | nil =>
      intro pos ns' h
      cases h
      simpa using ForestFeedPerm.nil
  | cons n l ih =>
      intro pos ns' h
      cases h with
      | cons hn hl =>
          cases pos with
          | zero => simpa using ForestFeedPerm.cons (hfg _ _ hn) hl
          | succ p => simpa using ForestFeedPerm.cons hn (ih p hl)

/-- `insertAux` sends permuted feed buckets and related forests to related
forests: the inserted path structure is identical, only the order of the
feeds appended at the terminal node can differ. -/
theorem insertAux_congr (components : List RStr) (full_path : RStr) :
    ∀ (rem : Nat) (fs fs' : List Feed) (ns ns' : List GroupNode) (depth : Nat),
      fs.Perm fs' → ForestFeedPerm ns ns' →
      ForestFeedPerm (insertAux components full_path fs rem ns depth)
        (insertAux components full_path fs' rem ns' depth) := by
  intro rem
  induction rem with
  | zero =>
      intro fs fs' ns ns' d hp h
      exact h
  | succ rem ih =>
      intro fs fs' ns ns' d hp h
      have ht := forestFeedPerm_listPosition h (components.getD d [])
      cases hpos : listPosition (fun n => n.title == components.getD d []) ns with
      | some pos =>
          rw [hpos] at ht
          simp only [insertAux, hpos, ← ht]
          by_cases hl : d = components.length - 1
          · rw [if_pos hl, if_pos hl]
            refine ForestFeedPerm.modify ?_ pos h
            intro n n' hn
            cases hn with
            | mk hfs hch => exact NodeFeedPerm.mk (hfs.append hp) hch
          · rw [if_neg hl, if_neg hl]
            refine ForestFeedPerm.modify ?_ pos h
            intro n n' hn
            cases hn with
            | mk hfs hch => exact NodeFeedPerm.mk hfs (ih fs fs' _ _ (d + 1) hp hch)
      | none =>
          rw [hpos] at ht
          simp only [insertAux, hpos, ← ht]
          by_cases hl : d = components.length - 1
          · rw [if_pos hl, if_pos hl]
            exact h.append (ForestFeedPerm.cons (NodeFeedPerm.mk hp ForestFeedPerm.nil)
              ForestFeedPerm.nil)
          · rw [if_neg hl, if_neg hl]
            exact h.append (ForestFeedPerm.cons
              (NodeFeedPerm.mk (List.Perm.refl [])
                (ih fs fs' [] [] (d + 1) hp ForestFeedPerm.nil))
              ForestFeedPerm.nil)

/-- The per-path feed bucket of permuted feed lists is a permutation. -/
theorem feedsForPath_perm {feeds feeds' : List Feed} (hp : feeds.Perm feeds') (p : RStr) :
    (feedsForPath feeds p).Perm (feedsForPath feeds' p) := by
  rw [feedsForPath, feedsForPath]
  by_cases h : p = []
  · rw [if_pos h, if_pos h]
  · rw [if_neg h, if_neg h]
    exact hp.filter _

/-- The insertion fold of `build_group_tree` over a common path list carries
`ForestFeedPerm` through when the two feed lists are permutations. -/
theorem foldl_insert_congr {feeds feeds' : List Feed} (hp : feeds.Perm feeds') :
    ∀ (paths : List RStr) {ns ns' : List GroupNode}, ForestFeedPerm ns ns' →
      ForestFeedPerm
        (paths.foldl (fun nodes path =>
          insert_into_tree nodes (splitPath path) path (feedsForPath feeds path) 0) ns)
        (paths.foldl (fun nodes path =>
          insert_into_tree nodes (splitPath path) path (feedsForPath feeds' path) 0) ns') := by
  intro paths
  induction paths with
  | nil =>
      intro ns ns' h
      exact h
  | cons p ps ih =>
      intro ns ns' h
      rw [List.foldl_cons, List.foldl_cons]
      exact ih (insertAux_congr (splitPath p) p ((splitPath p).length - 0) _ _ _ _ 0
        (feedsForPath_perm hp p) h)

mutual
/-- Related nodes have the same recursively calculated unread count: a
permutation of a node's feed list leaves the sum of unread counts unchanged. -/
theorem nodeFeedPerm_calc : ∀ (n : GroupNode) {n' : GroupNode}, NodeFeedPerm n n' →
    GroupNode.calculate_unread_count n = GroupNode.calculate_unread_count n'
  | .mk t p u fs ch, _, h => by
      cases h with
      | mk hfs hch =>
          rw [GroupNode.calculate_unread_count, GroupNode.calculate_unread_count,
            (hfs.map Feed.unread_count).sum_eq, forestFeedPerm_sumCalc ch hch]
theorem forestFeedPerm_sumCalc : ∀ (l : List GroupNode) {l' : List GroupNode},
    ForestFeedPerm l l' → GroupNode.sumCalc l = GroupNode.sumCalc l'
  | [], _, h => by cases h; rfl
  | n :: l, _, h => by
      cases h with
      | cons hn hl =>
          rw [GroupNode.sumCalc, GroupNode.sumCalc, nodeFeedPerm_calc n hn,
            forestFeedPerm_sumCalc l hl]
end

mutual
/-- `update_unread_counts` preserves the feed-permutation relation. -/
theorem nodeFeedPerm_update : ∀ (n : GroupNode) {n' : GroupNode}, NodeFeedPerm n n' →
    NodeFeedPerm (GroupNode.update_unread_counts n) (GroupNode.update_unread_counts n')
  | .mk t p u fs ch, _, h => by
      cases h with
      | mk hfs hch =>
          rw [GroupNode.update_unread_counts, GroupNode.update_unread_counts,
            nodeFeedPerm_calc _ (NodeFeedPerm.mk hfs hch)]
          exact NodeFeedPerm.mk hfs (forestFeedPerm_updateList ch hch)
theorem forestFeedPerm_updateList : ∀ (l : List GroupNode) {l' : List GroupNode},
    ForestFeedPerm l l' →
    ForestFeedPerm (GroupNode.updateList l) (GroupNode.updateList l')
  | [], _, h => by cases h; exact ForestFeedPerm.nil
  | n :: l, _, h => by
      cases h with
      | cons hn hl =>
          rw [GroupNode.updateList, GroupNode.updateList]
          exact ForestFeedPerm.cons (nodeFeedPerm_update n hn) (forestFeedPerm_updateList l hl)
end

/-- C8: build_group_tree sorts the collected root-level path list
lexicographically, and that sorted path list is identical for any two
permutations of the input feed list; the resulting trees are equal node for
node in titles, full paths, unread counts and child structure — but a node's
feed list keeps the input order of its feeds, so permuted inputs yield trees
equal only up to the order of feeds within each node (`ForestFeedPerm`), not
identical trees. -/
theorem C8_build_group_tree_stable :
    (∀ (feeds feeds' : List Feed) (eg : List RStr), feeds.Perm feeds' →
      List.insertionSort pathLeP (addEmptyGroups (pathKeys feeds) eg) =
      List.insertionSort pathLeP (addEmptyGroups (pathKeys feeds') eg)) ∧
    (∀ (feeds feeds' : List Feed) (eg : List RStr), feeds.Perm feeds' →
      ForestFeedPerm (build_group_tree feeds eg) (build_group_tree feeds' eg)) := by
  refine ⟨fun feeds feeds' eg hp => allPaths_perm_eq eg hp, ?_⟩
  intro feeds feeds' eg hp
  rw [build_group_tree, build_group_tree]
  simp only []
  rw [allPaths_perm_eq eg hp]
  by_cases h0 : List.insertionSort pathLeP (addEmptyGroups (pathKeys feeds') eg) = []
  · rw [if_pos h0, if_pos h0]
    exact ForestFeedPerm.nil
  · rw [if_neg h0, if_neg h0]
    exact forestFeedPerm_updateList _ (foldl_insert_congr hp _ ForestFeedPerm.nil)

/-- First feed of the C8 counterexample (group "G"). -/
def c8f1 : Feed := ⟨1, "G".data, "a".data, "ua".data, none, none, 1⟩

/-- Second feed of the C8 counterexample (same group "G"). -/
def c8f2 : Feed := ⟨2, "G".data, "b".data, "ub".data, none, none, 2⟩

/-- Counterexample for C8 as stated: the two input orders are permutations of
each other, yet the built trees are not identical — the node for "G" keeps
its feeds in input order. -/
theorem C8_counterexample :
    List.Perm [c8f1, c8f2] [c8f2, c8f1] ∧
    build_group_tree [c8f1, c8f2] [] ≠ build_group_tree [c8f2, c8f1] [] :=
  ⟨List.Perm.swap c8f2 c8f1 [], by decide⟩

/-- Witness for C8: both conjuncts applied to the concrete permuted pair. -/
theorem C8_witness :
    (List.insertionSort pathLeP (addEmptyGroups (pathKeys [c8f1, c8f2]) []) =
      List.insertionSort pathLeP (addEmptyGroups (pathKeys [c8f2, c8f1]) [])) ∧
    ForestFeedPerm (build_group_tree [c8f1, c8f2] []) (build_group_tree [c8f2, c8f1] []) :=
  ⟨C8_build_group_tree_stable.1 [c8f1, c8f2] [c8f2, c8f1] [] (List.Perm.swap c8f2 c8f1 []),
    C8_build_group_tree_stable.2 [c8f1, c8f2] [c8f2, c8f1] [] (List.Perm.swap c8f2 c8f1 [])⟩

/-- The inner `for j` loop of App::remove_and_return_feed (src/app.rs): remove
the first DIRECT standalone child whose feed url matches, returning it.
Nested groups are skipped by this pass. -/
def removeDirectFeedR : List FeedConfigItem → RStr → Option FeedSource × List FeedConfigItem
  | [], _ => (none, [])
  | FeedConfigItem.Standalone fs :: items, url =>
      if fs.feed = some url then (some fs, items)
      else
        ((removeDirectFeedR items url).1,
          FeedConfigItem.Standalone fs :: (removeDirectFeedR items url).2)
  | FeedConfigItem.Group t g :: items, url =>
      ((removeDirectFeedR items url).1,
        FeedConfigItem.Group t g :: (removeDirectFeedR items url).2)

mutual
/-- The body of the `for i` loop of App::remove_and_return_feed (src/app.rs)
for one item: `some (fs, none)` means the item itself was the removed
standalone, `some (fs, some it)` means the removal happened inside the group
and the item is replaced by `it`, `none` means not found here. -/
def removeReturnAttempt : FeedConfigItem → RStr → Option (FeedSource × Option FeedConfigItem)
  | FeedConfigItem.Standalone fs, url =>
      if fs.feed = some url then some (fs, none) else none
  | FeedConfigItem.Group t g, url =>
      match (removeDirectFeedR g url).1 with
      | some fs => some (fs, some (FeedConfigItem.Group t (removeDirectFeedR g url).2))
      | none =>
          match (remove_and_return_feed g url).1 with
          | some fs =>
              some (fs, some (FeedConfigItem.Group t (remove_and_return_feed g url).2))
          | none => none
/-- App::remove_and_return_feed (src/app.rs): walk the item list with the same
two-phase search as remove_feed_recursive, but return the removed FeedSource
(the cut feed) together with the updated list. -/
def remove_and_return_feed : List FeedConfigItem → RStr → Option FeedSource × List FeedConfigItem
  | [], _ => (none, [])
  | item :: items, url =>
      match removeReturnAttempt item url with
      | some (fs, none) => (some fs, items)
      | some (fs, some it) => (some fs, it :: items)
      | none =>
          ((remove_and_return_feed items url).1,
            item :: (remove_and_return_feed items url).2)
end

/-- The `if let Group(group) = item { group.title == current_title }` test of
App::paste_feed_into_group_recursive (src/app.rs). -/
def isGroupTitled (c : RStr) : FeedConfigItem → Bool
  | FeedConfigItem.Group t _ => t == c
  | FeedConfigItem.Standalone _ => false

/-- App::paste_feed_into_group_recursive (src/app.rs): walk the components,
descending into the first group whose title matches at each level; push the
pasted item at the end of the target group's list; create the group hierarchy
if a component is missing.  As with `insertAux`, the Rust recursion increases
`depth` up to `components.len()`, so we recurse structurally on the remaining
count while keeping `depth` for indexing, exactly as the source does. -/
def pasteAux (feed_item : FeedConfigItem) (components : List RStr) :
    Nat → List FeedConfigItem → Nat → List FeedConfigItem
  | 0, feeds, _ => feeds
  | rem + 1, feeds, depth =>
      let current_title := components.getD depth []
      let is_last := depth = components.length - 1
      match listPosition (isGroupTitled current_title) feeds with
      | some i =>
          if is_last then
            List.modify (fun it =>
              match it with
              | FeedConfigItem.Group t fs => FeedConfigItem.Group t (fs ++ [feed_item])
              | it => it) i feeds
          else
            List.modify (fun it =>
              match it with
              | FeedConfigItem.Group t fs =>
                  FeedConfigItem.Group t (pasteAux feed_item components rem fs (depth + 1))
              | it => it) i feeds
      | none =>
          if is_last then
            feeds ++ [FeedConfigItem.Group current_title [feed_item]]
          else
            feeds ++ [FeedConfigItem.Group current_title
              (pasteAux feed_item components rem [] (depth + 1))]

/-- App::paste_feed_into_group (src/app.rs): split the path and paste at
depth 0 (the empty-components early return is kept from the source, though
`splitPath` never produces an empty list). -/
def paste_feed_into_group (feeds : List FeedConfigItem) (feed_item : FeedConfigItem)
    (group_path : RStr) : List FeedConfigItem :=
  if splitPath group_path = [] then feeds
  else pasteAux feed_item (splitPath group_path) (splitPath group_path).length feeds 0

/-- Titles of the group items of one sibling list (in order). -/
def groupTitles : List FeedConfigItem → List RStr
  | [] => []
  | FeedConfigItem.Group t _ :: items => t :: groupTitles items
  | FeedConfigItem.Standalone _ :: items => groupTitles items

/-- Boolean duplicate-freedom check for path lists. -/
def nodupRStr : List RStr → Bool
  | [] => true
  | t :: ts => !(ts.contains t) && nodupRStr ts

mutual
/-- Sibling group titles are duplicate-free inside this item, recursively. -/
def uniqSibItem : FeedConfigItem → Bool
  | FeedConfigItem.Standalone _ => true
  | FeedConfigItem.Group _ g => nodupRStr (groupTitles g) && uniqSibList g
/-- Sibling group titles are duplicate-free inside every item of the list. -/
def uniqSibList : List FeedConfigItem → Bool
  | [] => true
  | item :: items => uniqSibItem item && uniqSibList items
end

/-- Sibling group titles are duplicate-free at every level of the forest:
the well-formedness under which a group path identifies a unique group. -/
def uniqSib (l : List FeedConfigItem) : Bool :=
  nodupRStr (groupTitles l) && uniqSibList l

/-- `l'` is `l` with one standalone feed (feed url `url`) deleted from the
sibling list reached by following the group titles in the path index:
path `[]` means the feed sat at this level. -/
inductive RemovedFeedAt (url : RStr) :
    List RStr → FeedSource → List FeedConfigItem → List FeedConfigItem → Prop where
  | here : ∀ (fs : FeedSource) (rest : List FeedConfigItem),
      fs.feed = some url →
      RemovedFeedAt url [] fs (FeedConfigItem.Standalone fs :: rest) rest
  | there : ∀ (p : List RStr) (fs : FeedSource) (item : FeedConfigItem)
      (l l' : List FeedConfigItem),
      RemovedFeedAt url p fs l l' → RemovedFeedAt url p fs (item :: l) (item :: l')
  | inside : ∀ (p : List RStr) (fs : FeedSource) (t : RStr)
      (g g' rest : List FeedConfigItem),
      RemovedFeedAt url p fs g g' →
      RemovedFeedAt url (t :: p) fs (FeedConfigItem.Group t g :: rest)
        (FeedConfigItem.Group t g' :: rest)

/-- Two config forests that are structurally equal except that the item list
of one group level is permuted: the claim's "equal up to item ordering within
the affected group". -/
inductive OneGroupPerm : List FeedConfigItem → List FeedConfigItem → Prop where
  | root : ∀ {l l' : List FeedConfigItem}, l.Perm l' → OneGroupPerm l l'
  | skip : ∀ {item : FeedConfigItem} {l l' : List FeedConfigItem},
      OneGroupPerm l l' → OneGroupPerm (item :: l) (item :: l')
  | focus : ∀ {t : RStr} {g g' rest : List FeedConfigItem},
      OneGroupPerm g g' →
      OneGroupPerm (FeedConfigItem.Group t g :: rest) (FeedConfigItem.Group t g' :: rest)

/-- Pasting a cut item back at its recorded location: path `[]` is the
root-level paste (`config.feeds.push` in App::paste_feed_to_config), a
non-empty path goes through the recursive group walk. -/
def pasteBack (l : List FeedConfigItem) (x : FeedConfigItem) : List RStr → List FeedConfigItem
  | [] => l ++ [x]
  | t :: p => pasteAux x (t :: p) (p.length + 1) l 0

/-- The direct-child scan of remove_and_return_feed removes exactly one
standalone at this level (path `[]`), or leaves the list unchanged. -/
theorem removeDirectFeedR_spec (l : List FeedConfigItem) (url : RStr) :
    ((removeDirectFeedR l url).1 = none → (removeDirectFeedR l url).2 = l) ∧
    (∀ fs, (removeDirectFeedR l url).1 = some fs →
      RemovedFeedAt url [] fs l (removeDirectFeedR l url).2) := by
  induction l with
  | nil => exact ⟨fun _ => rfl, fun fs h => by cases h⟩
  | cons item items ih =>
      cases item with
      | Standalone fs0 =>
          by_cases hm : fs0.feed = some url
          · constructor
            · intro h
              rw [removeDirectFeedR, if_pos hm] at h
              cases h
            · intro fs h
              rw [removeDirectFeedR, if_pos hm] at h
              obtain rfl : fs0 = fs := by simpa using h
              rw [removeDirectFeedR, if_pos hm]
              exact RemovedFeedAt.here fs0 items hm
          · constructor
            · intro h
              simp only [removeDirectFeedR, if_neg hm] at h ⊢
              rw [ih.1 h]
            · intro fs h
              simp only [removeDirectFeedR, if_neg hm] at h ⊢
              exact RemovedFeedAt.there [] fs _ _ _ (ih.2 fs h)
      | Group t g =>
          constructor
          · intro h
            simp only [removeDirectFeedR] at h ⊢
            rw [ih.1 h]
          · intro fs h
            simp only [removeDirectFeedR] at h ⊢
            exact RemovedFeedAt.there [] fs _ _ _ (ih.2 fs h)

mutual
/-- Per-item effect of remove_and_return_feed: a removed standalone is the
item itself, or the removal happened inside the group at some deeper path. -/
theorem removeReturnAttempt_spec : ∀ (item : FeedConfigItem) (url : RStr),
    (∀ fs, removeReturnAttempt item url = some (fs, none) →
      item = FeedConfigItem.Standalone fs ∧ fs.feed = some url) ∧
    (∀ fs it, removeReturnAttempt item url = some (fs, some it) →
      ∃ t g g' p, item = FeedConfigItem.Group t g ∧ it = FeedConfigItem.Group t g' ∧
        RemovedFeedAt url p fs g g')
  | FeedConfigItem.Standalone fs0, url => by
      by_cases hm : fs0.feed = some url
      · constructor
        · intro fs h
          rw [removeReturnAttempt, if_pos hm] at h
          obtain rfl : fs0 = fs := by simpa using h
          exact ⟨rfl, hm⟩
        · intro fs it h
          rw [removeReturnAttempt, if_pos hm] at h
          simp at h
      · constructor
        · intro fs h
          rw [removeReturnAttempt, if_neg hm] at h
          cases h
        · intro fs it h
          rw [removeReturnAttempt, if_neg hm] at h
          cases h
  | FeedConfigItem.Group t g, url => by
      cases hdf : (removeDirectFeedR g url).1 with
      | some fsd =>
          constructor
          · intro fs h
            simp only [removeReturnAttempt, hdf] at h
            simp at h
          · intro fs it h
            simp only [removeReturnAttempt, hdf] at h
            obtain ⟨rfl, rfl⟩ : fsd = fs ∧ FeedConfigItem.Group t (removeDirectFeedR g url).2 = it := by
              simpa using h
            exact ⟨t, g, (removeDirectFeedR g url).2, [], rfl, rfl,
              (removeDirectFeedR_spec g url).2 fsd hdf⟩
      | none =>
          cases hrg : (remove_and_return_feed g url).1 with
          | some fsr =>
              constructor
              · intro fs h
                simp only [removeReturnAttempt, hdf, hrg] at h
                simp at h
              · intro fs it h
                simp only [removeReturnAttempt, hdf, hrg] at h
                obtain ⟨rfl, rfl⟩ :
                    fsr = fs ∧ FeedConfigItem.Group t (remove_and_return_feed g url).2 = it := by
                  simpa using h
                obtain ⟨p, hp⟩ := (remove_and_return_spec g url).2 fsr hrg
                exact ⟨t, g, (remove_and_return_feed g url).2, p, rfl, rfl, hp⟩
          | none =>
              constructor
              · intro fs h
                simp only [removeReturnAttempt, hdf, hrg] at h
                cases h
              · intro fs it h
                simp only [removeReturnAttempt, hdf, hrg] at h
                cases h
/-- remove_and_return_feed either leaves the list unchanged (not found) or
removes exactly one matching standalone at some path, returning it. -/
theorem remove_and_return_spec : ∀ (l : List FeedConfigItem) (url : RStr),
    ((remove_and_return_feed l url).1 = none → (remove_and_return_feed l url).2 = l) ∧
    (∀ fs, (remove_and_return_feed l url).1 = some fs →
      ∃ p, RemovedFeedAt url p fs l (remove_and_return_feed l url).2)
  | [], url => ⟨fun _ => rfl, fun fs h => by cases h⟩
  | item :: items, url => by
      cases hat : removeReturnAttempt item url with
      | none =>
          have ih := remove_and_return_spec items url
          constructor
          · intro h
            simp only [remove_and_return_feed, hat] at h ⊢
            rw [ih.1 h]
          · intro fs h
            simp only [remove_and_return_feed, hat] at h ⊢
            obtain ⟨p, hp⟩ := ih.2 fs h
            exact ⟨p, RemovedFeedAt.there p fs item _ _ hp⟩
      | some pr =>
          obtain ⟨fs0, oit⟩ := pr
          cases oit with
          | none =>
              obtain ⟨rfl, hm⟩ := (removeReturnAttempt_spec item url).1 fs0 hat
              constructor
              · intro h
                simp only [remove_and_return_feed, hat] at h
                cases h
              · intro fs h
                simp only [remove_and_return_feed, hat] at h ⊢
                obtain rfl : fs0 = fs := by simpa using h
                exact ⟨[], RemovedFeedAt.here fs0 items hm⟩
          | some it =>
              obtain ⟨t, g, g', p, rfl, rfl, hrel⟩ :=
                (removeReturnAttempt_spec item url).2 fs0 it hat
              constructor
              · intro h
                simp only [remove_and_return_feed, hat] at h
                cases h
              · intro fs h
                simp only [remove_and_return_feed, hat] at h ⊢
                obtain rfl : fs0 = fs := by simpa using h
                exact ⟨t :: p, RemovedFeedAt.inside p fs0 t g g' items hrel⟩
end

/-- Pointwise-equal modification functions modify lists equally. -/
theorem modify_congr {α : Type} {f g : α → α} (h : ∀ a, f a = g a) :
    ∀ (i : Nat) (l : List α), List.modify f i l = List.modify g i l := by
  intro i l
  induction l generalizing i with
  | nil => simp
  | cons a as ih =>
      cases i with
      | zero => simp [h a]
      | succ n => simp [ih n]

/-- A leading path component only renames the indexing: pasting with
components `t :: p` from depth `d + 1` is pasting with components `p` from
depth `d` (for a non-empty `p`; fuel is preserved). -/
theorem pasteAux_shift (x : FeedConfigItem) (t : RStr) (p : List RStr) (hp : p ≠ []) :
    ∀ (rem : Nat) (feeds : List FeedConfigItem) (d : Nat),
      pasteAux x (t :: p) rem feeds (d + 1) = pasteAux x p rem feeds d := by
  have hlen : 0 < p.length := List.length_pos.mpr hp
  intro rem
  induction rem with
  | zero => intro feeds d; rfl
  | succ rem ih =>
      intro feeds d
      cases hpos : listPosition (isGroupTitled (p.getD d [])) feeds with
      | some i =>
          simp only [pasteAux, List.getD_cons_succ, hpos]
          by_cases hd : d = p.length - 1
          · rw [if_pos (by simp only [List.length_cons, Nat.add_sub_cancel]; omega), if_pos hd]
          · rw [if_neg (by simp only [List.length_cons, Nat.add_sub_cancel]; omega), if_neg hd]
            refine modify_congr ?_ i feeds
            intro it
            cases it with
            | Standalone s => rfl
            | Group t2 fs2 =>
                show FeedConfigItem.Group t2 (pasteAux x (t :: p) rem fs2 (d + 1 + 1)) =
                  FeedConfigItem.Group t2 (pasteAux x p rem fs2 (d + 1))
                rw [ih fs2 (d + 1)]
      | none =>
          simp only [pasteAux, List.getD_cons_succ, hpos]
          by_cases hd : d = p.length - 1
          · rw [if_pos (by simp only [List.length_cons, Nat.add_sub_cancel]; omega), if_pos hd]
          · rw [if_neg (by simp only [List.length_cons, Nat.add_sub_cancel]; omega), if_neg hd]
            rw [ih [] (d + 1)]

/-- A head item that is not a group with the current title is passed over by
the paste walk. -/
theorem pasteAux_cons_head (x item : FeedConfigItem) (components : List RStr)
    (rem d : Nat) (l : List FeedConfigItem)
    (h : isGroupTitled (components.getD d []) item = false) :
    pasteAux x components (rem + 1) (item :: l) d =
      item :: pasteAux x components (rem + 1) l d := by
  cases hpos : listPosition (isGroupTitled (components.getD d [])) l with
  | none =>
      simp only [pasteAux, listPosition, h, Bool.false_eq_true, if_false, hpos,
        Option.map_none']
      by_cases hl : d = components.length - 1
      · rw [if_pos hl, if_pos hl]
        simp
      · rw [if_neg hl, if_neg hl]
        simp
  | some i =>
      simp only [pasteAux, listPosition, h, Bool.false_eq_true, if_false, hpos,
        Option.map_some']
      by_cases hl : d = components.length - 1
      · rw [if_pos hl, if_pos hl]
        simp
      · rw [if_neg hl, if_neg hl]
        simp

/-- A head group carrying the current title receives the paste: at the last
component the item is appended to its list, otherwise the walk descends. -/
theorem pasteAux_cons_found (x : FeedConfigItem) (t : RStr) (g : List FeedConfigItem)
    (components : List RStr) (rem d : Nat) (rest : List FeedConfigItem)
    (h : components.getD d [] = t) :
    pasteAux x components (rem + 1) (FeedConfigItem.Group t g :: rest) d =
      (if d = components.length - 1 then
        FeedConfigItem.Group t (g ++ [x]) :: rest
      else
        FeedConfigItem.Group t (pasteAux x components rem g (d + 1)) :: rest) := by
  simp only [pasteAux, h]
  simp only [show listPosition (isGroupTitled t) (FeedConfigItem.Group t g :: rest) = some 0 from
    by simp [listPosition, isGroupTitled]]
  by_cases hl : d = components.length - 1
  · rw [if_pos hl, if_pos hl]
    simp
  · rw [if_neg hl, if_neg hl]
    simp

/-- Sibling-title uniqueness passes to the tail of a sibling list. -/
theorem uniqSib_tail {item : FeedConfigItem} {l : List FeedConfigItem}
    (h : uniqSib (item :: l) = true) : uniqSib l = true := by
  cases item with
  | Standalone s =>
      rw [uniqSib, groupTitles, uniqSibList] at h
      rw [uniqSib]
      simp only [Bool.and_eq_true] at h ⊢
      exact ⟨h.1, h.2.2⟩
  | Group t g =>
      rw [uniqSib, groupTitles, uniqSibList, nodupRStr] at h
      rw [uniqSib]
      simp only [Bool.and_eq_true] at h ⊢
      exact ⟨h.1.2, h.2.2⟩

/-- Sibling-title uniqueness passes into a head group's contents. -/
theorem uniqSib_group {t : RStr} {g rest : List FeedConfigItem}
    (h : uniqSib (FeedConfigItem.Group t g :: rest) = true) : uniqSib g = true := by
  rw [uniqSib, uniqSibList, uniqSibItem] at h
  rw [uniqSib]
  simp only [Bool.and_eq_true] at h ⊢
  exact ⟨h.2.1.1, h.2.1.2⟩

/-- Under sibling-title uniqueness, a head group's title does not recur among
the remaining siblings. -/
theorem uniqSib_head_title {t : RStr} {g : List FeedConfigItem} {l : List FeedConfigItem}
    (h : uniqSib (FeedConfigItem.Group t g :: l) = true) : t ∉ groupTitles l := by
  rw [uniqSib, groupTitles, nodupRStr] at h
  simp only [Bool.and_eq_true, Bool.not_eq_eq_eq_not, Bool.not_true] at h
  intro hmem
  have : (groupTitles l).contains t = true := by simpa using hmem
  rw [h.1.1] at this
  cases this

/-- A removal at path `t :: p` means a group titled `t` sits in this sibling
list. -/
theorem removedFeedAt_title_mem {url : RStr} {fs : FeedSource} :
    ∀ {q : List RStr} {l l' : List FeedConfigItem}, RemovedFeedAt url q fs l l' →
      ∀ (t : RStr) (p : List RStr), q = t :: p → t ∈ groupTitles l := by
  intro q l l' h
  induction h with
  | here fs0 rest hm =>
      intro t p hq
      cases hq
  | there p0 fs0 item l0 l0' h0 ih =>
      intro t p hq
      cases item with
      | Standalone s =>
          rw [groupTitles]
          exact ih t p hq
      | Group t2 g2 =>
          rw [groupTitles]
          exact List.mem_cons_of_mem _ (ih t p hq)
  | inside p0 fs0 t0 g g' rest h0 ih =>
      intro t p hq
      injection hq with h1 h2
      rw [groupTitles, h1]
      exact List.mem_cons_self _ _

/-- Pasting a removed feed back at the path it was removed from re-creates
the original forest up to item ordering within the affected group, provided
sibling group titles are unique at every level. -/
theorem removedFeedAt_paste {url : RStr} {fs : FeedSource} :
    ∀ {p : List RStr} {l l' : List FeedConfigItem}, RemovedFeedAt url p fs l l' →
      uniqSib l = true →
      OneGroupPerm l (pasteBack l' (FeedConfigItem.Standalone fs) p) := by
  intro p l l' h
  induction h with
  | here fs0 rest hm =>
      intro _
      rw [pasteBack]
      exact OneGroupPerm.root (List.perm_append_singleton _ _).symm
  | there p0 fs0 item l0 l0' h0 ih =>
      intro hu
      have hu0 := uniqSib_tail hu
      cases p0 with
      | nil =>
          exact OneGroupPerm.skip (ih hu0)
      | cons t p1 =>
          have htm : t ∈ groupTitles l0 := removedFeedAt_title_mem h0 t p1 rfl
          have hhead : isGroupTitled ((t :: p1).getD 0 []) item = false := by
            cases item with
            | Standalone s => rfl
            | Group t2 g2 =>
                have hne : t2 ≠ t := fun he => uniqSib_head_title hu (he ▸ htm)
                simp only [List.getD_cons_zero, isGroupTitled]
                exact beq_eq_false_iff_ne.mpr hne
          rw [pasteBack, pasteAux_cons_head _ item _ _ _ _ hhead]
          exact OneGroupPerm.skip (ih hu0)
  | inside p0 fs0 t0 g g' rest h0 ih =>
      intro hu
      have hug : uniqSib g = true := uniqSib_group hu
      cases p0 with
      | nil =>
          rw [pasteBack, pasteAux_cons_found _ t0 g' _ _ _ _ (by simp), if_pos (by simp)]
          exact OneGroupPerm.focus (ih hug)
      | cons t1 p1 =>
          rw [pasteBack, pasteAux_cons_found _ t0 g' _ _ _ _ (by simp),
            if_neg (by simp only [List.length_cons]; omega),
            pasteAux_shift _ t0 (t1 :: p1) (by simp) _ g' 0]
          exact OneGroupPerm.focus (ih hug)

/-- C5 (amended): cut-and-paste round trip.  Removing a feed by its feed-URL
key removes exactly one matching standalone at some group path `p` (or leaves
the tree unchanged when nothing matches), and — provided sibling group titles
are unique at every level — pasting it back at that path (root push for
`p = []`, the recursive group walk otherwise) yields a config tree equal to
the original except for item ordering within the affected group.  Without
the sibling-uniqueness hypothesis the paste can land in a different
same-titled group, and the round trip fails (see the counterexample). -/
theorem C5_cut_paste_round_trip :
    (∀ (l : List FeedConfigItem) (url : RStr) (fs : FeedSource),
      (remove_and_return_feed l url).1 = some fs →
      ∃ p, RemovedFeedAt url p fs l (remove_and_return_feed l url).2) ∧
    (∀ (l : List FeedConfigItem) (url : RStr),
      (remove_and_return_feed l url).1 = none → (remove_and_return_feed l url).2 = l) ∧
    (∀ (url : RStr) (p : List RStr) (fs : FeedSource) (l l' : List FeedConfigItem),
      RemovedFeedAt url p fs l l' → uniqSib l = true →
      OneGroupPerm l (pasteBack l' (FeedConfigItem.Standalone fs) p)) ∧
    (∀ (url t : RStr) (p : List RStr) (fs : FeedSource) (l l' : List FeedConfigItem)
      (s : RStr),
      RemovedFeedAt url (t :: p) fs l l' → uniqSib l = true → splitPath s = t :: p →
      OneGroupPerm l (paste_feed_into_group l' (FeedConfigItem.Standalone fs) s)) := by
  refine ⟨fun l url fs h => (remove_and_return_spec l url).2 fs h,
    fun l url h => (remove_and_return_spec l url).1 h,
    fun url p fs l l' h hu => removedFeedAt_paste h hu, ?_⟩
  intro url t p fs l l' s h hu hs
  rw [paste_feed_into_group, hs, if_neg (by simp)]
  exact removedFeedAt_paste h hu

/-- Feed without a feed-URL field, in the first "G" group (C5 counterexample). -/
def c5A : FeedSource := ⟨"a".data, "ua".data, none⟩

/-- The cut feed, in the second "G" group (C5 counterexample). -/
def c5X : FeedSource := ⟨"x".data, "ux".data, some "X".data⟩

/-- Counterexample forest: two sibling groups share the title "G". -/
def c5ex : List FeedConfigItem :=
  [FeedConfigItem.Group "G".data [FeedConfigItem.Standalone c5A],
   FeedConfigItem.Group "G".data [FeedConfigItem.Standalone c5X]]

/-- Counterexample for C5 as stated: with duplicate sibling group titles, the
feed is cut from the second "G" group but pasted into the first, so the round
trip is not the original tree up to ordering within one group. -/
theorem C5_counterexample :
    (remove_and_return_feed c5ex "X".data).1 = some c5X ∧
    uniqSib c5ex = false ∧
    ¬ OneGroupPerm c5ex
      (paste_feed_into_group (remove_and_return_feed c5ex "X".data).2
        (FeedConfigItem.Standalone c5X) "G".data) := by
  refine ⟨by decide, by decide, ?_⟩
  intro h
  rw [show paste_feed_into_group (remove_and_return_feed c5ex "X".data).2
      (FeedConfigItem.Standalone c5X) "G".data =
      [FeedConfigItem.Group "G".data
        [FeedConfigItem.Standalone c5A, FeedConfigItem.Standalone c5X],
       FeedConfigItem.Group "G".data []] from by decide] at h
  rw [show c5ex = [FeedConfigItem.Group "G".data [FeedConfigItem.Standalone c5A],
       FeedConfigItem.Group "G".data [FeedConfigItem.Standalone c5X]] from rfl] at h
  cases h with
  | root h' => exact absurd h' (by decide)

/-- Feed without a feed-URL field in the C5 witness group. -/
def c5w1 : FeedSource := ⟨"w".data, "uw".data, none⟩

/-- The cut feed of the C5 witness. -/
def c5wX : FeedSource := ⟨"y".data, "uy".data, some "Y".data⟩

/-- Witness forest: one group "G" holding both feeds (unique sibling titles). -/
def c5w : List FeedConfigItem :=
  [FeedConfigItem.Group "G".data
    [FeedConfigItem.Standalone c5w1, FeedConfigItem.Standalone c5wX]]

/-- Witness for C5: the concrete cut returns the feed with a path, and the
paste back into "G" restores the tree up to ordering inside that group. -/
theorem C5_witness :
    (∃ p, RemovedFeedAt "Y".data p c5wX c5w (remove_and_return_feed c5w "Y".data).2) ∧
    OneGroupPerm c5w
      (paste_feed_into_group [FeedConfigItem.Group "G".data [FeedConfigItem.Standalone c5w1]]
        (FeedConfigItem.Standalone c5wX) "G".data) :=
  ⟨C5_cut_paste_round_trip.1 c5w "Y".data c5wX (by decide),
    C5_cut_paste_round_trip.2.2.2 "Y".data "G".data [] c5wX c5w
      [FeedConfigItem.Group "G".data [FeedConfigItem.Standalone c5w1]] "G".data
      (RemovedFeedAt.inside [] c5wX "G".data
        [FeedConfigItem.Standalone c5w1, FeedConfigItem.Standalone c5wX]
        [FeedConfigItem.Standalone c5w1] []
        (RemovedFeedAt.there [] c5wX (FeedConfigItem.Standalone c5w1) _ _
          (RemovedFeedAt.here c5wX [] rfl)))
      (by decide) (by decide)⟩

/-- Rust `components.join(" > ")` (src/app.rs): the inverse of `splitPath`. -/
def joinPath (c : List RStr) : RStr := List.intercalate pathSep c

theorem joinPath_nil : joinPath [] = [] := by
  simp [joinPath, List.intercalate, List.intersperse]

theorem joinPath_single (a : RStr) : joinPath [a] = a := by
  simp [joinPath, List.intercalate, List.intersperse]

theorem joinPath_cons_cons (a b : RStr) (l : List RStr) :
    joinPath (a :: b :: l) = a ++ pathSep ++ joinPath (b :: l) := by
  simp [joinPath, List.intercalate, List.intersperse]

theorem joinPath_cons_ne {t : List RStr} (h : t ≠ []) (b : RStr) :
    joinPath (b :: t) = b ++ pathSep ++ joinPath t := by
  cases t with
  | nil => exact absurd rfl h
  | cons x xs => exact joinPath_cons_cons b x xs

/-- `splitPathAux` always produces at least one component. -/
theorem splitPathAux_ne_nil : ∀ (fuel : Nat) (s : RStr), splitPathAux fuel s ≠ []
  | 0, s => by simp [splitPathAux]
  | fuel + 1, s => by
      rw [splitPathAux]
      cases h : splitOnceAux pathSep s with
      | none => simp
      | some p => simp

/-- `splitPath` always produces at least one component. -/
theorem splitPath_ne_nil (s : RStr) : splitPath s ≠ [] :=
  splitPathAux_ne_nil s.length s

/-- A successful leftmost split decomposes the string. -/
theorem splitOnceAux_decomp : ∀ {s b a : RStr},
    splitOnceAux pathSep s = some (b, a) → s = b ++ pathSep ++ a := by
  intro s
  induction s with
  | nil => intro b a h; simp [splitOnceAux] at h
  | cons c cs ih =>
      intro b a h
      rw [splitOnceAux] at h
      by_cases hp : pathSep.isPrefixOf (c :: cs)
      · rw [if_pos hp] at h
        simp only [Option.some.injEq, Prod.mk.injEq] at h
        obtain ⟨rfl, rfl⟩ := h
        have hpre : pathSep <+: (c :: cs) := List.isPrefixOf_iff_prefix.mp hp
        obtain ⟨t, ht⟩ := hpre
        rw [← ht]
        simp [List.drop_left]
      · rw [if_neg hp] at h
        cases hrec : splitOnceAux pathSep cs with
        | none => rw [hrec] at h; cases h
        | some pr =>
            obtain ⟨b', a'⟩ := pr
            rw [hrec] at h
            simp only [Option.some.injEq, Prod.mk.injEq] at h
            obtain ⟨rfl, rfl⟩ := h
            rw [List.cons_append, List.cons_append]
            rw [← ih hrec]

/-- Whether the separator starts a string depends only on its first three
characters: appending different tails beyond them cannot change it. -/
theorem isPrefixOf_append_indep {u : RStr} (h : pathSep.length ≤ u.length) (w w' : RStr) :
    pathSep.isPrefixOf (u ++ w) = pathSep.isPrefixOf (u ++ w') := by
  have key : ∀ v : RStr, pathSep.isPrefixOf (u ++ v) = true ↔ u.take pathSep.length = pathSep := by
    intro v
    rw [List.isPrefixOf_iff_prefix]
    constructor
    · intro hp
      have ht := (List.prefix_iff_eq_take.mp hp).symm
      rw [List.take_append_of_le_length h] at ht
      exact ht
    · intro ht
      rw [← ht]
      exact (List.take_prefix pathSep.length u).trans (List.prefix_append u v)
  rw [Bool.eq_iff_iff, key w, key w']

/-- The part before the first separator occurrence is separator-free. -/
theorem splitOnceAux_before_none : ∀ {s b a : RStr},
    splitOnceAux pathSep s = some (b, a) → splitOnceAux pathSep b = none := by
  intro s
  induction s with
  | nil => intro b a h; simp [splitOnceAux] at h
  | cons c cs ih =>
      intro b a h
      rw [splitOnceAux] at h
      by_cases hp : pathSep.isPrefixOf (c :: cs)
      · rw [if_pos hp] at h
        simp only [Option.some.injEq, Prod.mk.injEq] at h
        obtain ⟨rfl, rfl⟩ := h
        rfl
      · rw [if_neg hp] at h
        cases hrec : splitOnceAux pathSep cs with
        | none => rw [hrec] at h; cases h
        | some pr =>
            obtain ⟨b', a'⟩ := pr
            rw [hrec] at h
            simp only [Option.some.injEq, Prod.mk.injEq] at h
            obtain ⟨rfl, rfl⟩ := h
            rw [splitOnceAux]
            have hnp : ¬ pathSep.isPrefixOf (c :: b') = true := by
              intro hpre
              apply hp
              have h1 : pathSep <+: (c :: b') := List.isPrefixOf_iff_prefix.mp hpre
              have h2 : c :: cs = (c :: b') ++ (pathSep ++ a') := by
                rw [splitOnceAux_decomp hrec]
                simp [List.append_assoc]
              rw [h2]
              exact List.isPrefixOf_iff_prefix.mpr
                (h1.trans (List.prefix_append (c :: b') (pathSep ++ a')))
            rw [if_neg hnp, ih hrec]

/-- The leftmost split of `b ++ sep ++ a` at the shown separator does not
depend on what follows it. -/
theorem splitOnceAux_localize : ∀ {b a : RStr},
    splitOnceAux pathSep (b ++ pathSep ++ a) = some (b, a) →
    ∀ x, splitOnceAux pathSep (b ++ pathSep ++ x) = some (b, x) := by
  intro b
  induction b with
  | nil =>
      intro a _ x
      have hx : ([] : RStr) ++ pathSep ++ x = ' ' :: ('>' :: (' ' :: x)) := rfl
      rw [hx, splitOnceAux]
      rw [if_pos (List.isPrefixOf_iff_prefix.mpr (by
        rw [← hx]
        exact List.prefix_append pathSep x))]
      simp [List.drop]
  | cons c b' ih =>
      intro a h x
      have hc : ∀ (w : RStr), (c :: b') ++ pathSep ++ w = c :: (b' ++ pathSep ++ w) := by
        intro w
        simp
      rw [hc a, splitOnceAux] at h
      by_cases hp : pathSep.isPrefixOf (c :: (b' ++ pathSep ++ a))
      · rw [if_pos hp] at h
        simp only [Option.some.injEq, Prod.mk.injEq] at h
        cases h.1
      · rw [if_neg hp] at h
        cases hrec : splitOnceAux pathSep (b' ++ pathSep ++ a) with
        | none => rw [hrec] at h; cases h
        | some pr =>
            obtain ⟨b₀, a₀⟩ := pr
            rw [hrec] at h
            simp only [Option.some.injEq, Prod.mk.injEq, List.cons.injEq, true_and] at h
            rw [h.1, h.2] at hrec
            rw [hc x, splitOnceAux]
            have hre : ∀ (w : RStr), c :: (b' ++ pathSep ++ w) = (c :: (b' ++ pathSep)) ++ w := by
              intro w
              simp [List.append_assoc]
            have hlen : pathSep.length ≤ (c :: (b' ++ pathSep)).length := by
              simp [pathSep]
            have hnp : ¬ pathSep.isPrefixOf (c :: (b' ++ pathSep ++ x)) = true := by
              rw [hre x, isPrefixOf_append_indep hlen x a, ← hre a]
              exact hp
            rw [if_neg hnp, ih hrec x]

/-- Splitting then joining restores the original path string. -/
theorem joinPath_splitPath : ∀ (n : Nat) (s : RStr), s.length ≤ n →
    joinPath (splitPath s) = s := by
  intro n
  induction n with
  | zero =>
      intro s hs
      obtain rfl : s = [] := List.length_eq_zero.mp (Nat.le_zero.mp hs)
      rw [splitPath_eq]
      simp [splitOnceAux, joinPath_single]
  | succ n ih =>
      intro s hs
      rw [splitPath_eq]
      cases h : splitOnceAux pathSep s with
      | none => exact joinPath_single s
      | some pr =>
          obtain ⟨b, a⟩ := pr
          have hlt : a.length < s.length := splitOnceAux_length h
          rw [joinPath_cons_ne (splitPath_ne_nil a), ih a (by omega)]
          exact (splitOnceAux_decomp h).symm

/-- Every nonempty prefix of a split path is canonical: splitting its join
gives the prefix back. -/
theorem splitPath_take_canonical : ∀ (n : Nat) (s : RStr), s.length ≤ n → ∀ (k : Nat),
    splitPath (joinPath ((splitPath s).take (k + 1))) = (splitPath s).take (k + 1) := by
  intro n
  induction n with
  | zero =>
      intro s hs k
      obtain rfl : s = [] := List.length_eq_zero.mp (Nat.le_zero.mp hs)
      have hsp : splitPath ([] : RStr) = [([] : RStr)] := rfl
      rw [hsp, List.take_of_length_le (by simp), joinPath_single]
      exact hsp
  | succ n ih =>
      intro s hs k
      cases h : splitOnceAux pathSep s with
      | none =>
          have hsp : splitPath s = [s] := by
            rw [splitPath_eq, h]
          rw [hsp, List.take_of_length_le (by simp), joinPath_single]
          exact hsp
      | some pr =>
          obtain ⟨b, a⟩ := pr
          have hlt : a.length < s.length := splitOnceAux_length h
          have hsp : splitPath s = b :: splitPath a := by
            rw [splitPath_eq, h]
          cases k with
          | zero =>
              rw [hsp, List.take_succ_cons, List.take_zero, joinPath_single]
              rw [splitPath_eq, splitOnceAux_before_none h]
          | succ k' =>
              rw [hsp, List.take_succ_cons]
              have htne : (splitPath a).take (k' + 1) ≠ [] := by
                rw [Ne, List.take_eq_nil_iff]
                push_neg
                exact ⟨Nat.succ_ne_zero k', splitPath_ne_nil a⟩
              rw [joinPath_cons_ne htne]
              have hdec := splitOnceAux_decomp h
              have hloc : splitOnceAux pathSep
                  (b ++ pathSep ++ joinPath ((splitPath a).take (k' + 1))) =
                  some (b, joinPath ((splitPath a).take (k' + 1))) :=
                splitOnceAux_localize (by rw [← hdec]; exact h) _
              rw [splitPath_eq, hloc]
              show b :: splitPath (joinPath ((splitPath a).take (k' + 1))) =
                b :: (splitPath a).take (k' + 1)
              rw [ih a (by omega) k']

mutual
/-- Number of nodes in this subtree whose `full_path` equals `q`. -/
def countPathNode (q : RStr) : GroupNode → Nat
  | GroupNode.mk _ p _ _ ch => (if p = q then 1 else 0) + countPathList q ch
/-- Number of nodes in this forest whose `full_path` equals `q`. -/
def countPathList (q : RStr) : List GroupNode → Nat
  | [] => 0
  | n :: ns => countPathNode q n + countPathList q ns
end

mutual
/-- Structural well-formedness of a node sitting under the title chain `c`:
its full path is the join of its chain, that chain is canonical, its
children's sibling titles are duplicate-free, and its children are
well-formed under the extended chain. -/
def wfNode (c : List RStr) : GroupNode → Bool
  | GroupNode.mk t p _ _ ch =>
      (p == joinPath (c ++ [t])) &&
      (splitPath (joinPath (c ++ [t])) == c ++ [t]) &&
      nodupRStr (ch.map GroupNode.title) &&
      wfList (c ++ [t]) ch
/-- All nodes of a forest are well-formed under the chain `c`. -/
def wfList (c : List RStr) : List GroupNode → Bool
  | [] => true
  | n :: ns => wfNode c n && wfList c ns
end

mutual
/-- No two sibling groups share a title, at any depth of this subtree. -/
def sibTitlesNodupNode : GroupNode → Bool
  | GroupNode.mk _ _ _ _ ch => nodupRStr (ch.map GroupNode.title) && sibTitlesNodupList ch
/-- No two sibling groups share a title, at any depth of this forest. -/
def sibTitlesNodupList : List GroupNode → Bool
  | [] => true
  | n :: ns => sibTitlesNodupNode n && sibTitlesNodupList ns
end

mutual
/-- Every node's stored `unread_count` equals the recursively calculated sum
of the unread counts of the feeds in its subtree. -/
def unreadOkNode : GroupNode → Bool
  | GroupNode.mk t p u fs ch =>
      (u == GroupNode.calculate_unread_count (GroupNode.mk t p u fs ch)) && unreadOkList ch
/-- `unreadOkNode` holds for every node of the forest. -/
def unreadOkList : List GroupNode → Bool
  | [] => true
  | n :: ns => unreadOkNode n && unreadOkList ns
end

theorem countPathList_append (q : RStr) (l₁ l₂ : List GroupNode) :
    countPathList q (l₁ ++ l₂) = countPathList q l₁ + countPathList q l₂ := by
  induction l₁ with
  | nil => simp [countPathList]
  | cons n ns ih =>
      rw [List.cons_append, countPathList, countPathList, ih]
      omega

theorem wfList_append {c : List RStr} {l₁ l₂ : List GroupNode}
    (h₁ : wfList c l₁ = true) (h₂ : wfList c l₂ = true) : wfList c (l₁ ++ l₂) = true := by
  induction l₁ with
  | nil => exact h₂
  | cons n ns ih =>
      rw [wfList, Bool.and_eq_true] at h₁
      rw [List.cons_append, wfList, Bool.and_eq_true]
      exact ⟨h₁.1, ih h₁.2⟩

theorem wfList_mem {c : List RStr} {l : List GroupNode} (h : wfList c l = true) :
    ∀ {n : GroupNode}, n ∈ l → wfNode c n = true := by
  induction l with
  | nil => intro n hn; cases hn
  | cons m ms ih =>
      rw [wfList, Bool.and_eq_true] at h
      intro n hn
      rcases List.mem_cons.mp hn with rfl | hn'
      · exact h.1
      · exact ih h.2 hn'

/-- A member node with the queried path makes the count positive. -/
theorem countPathList_mem_pos {q : RStr} {l : List GroupNode} {n : GroupNode}
    (hn : n ∈ l) (hp : n.full_path = q) : countPathList q l ≠ 0 := by
  induction l with
  | nil => cases hn
  | cons m ms ih =>
      rw [countPathList]
      rcases List.mem_cons.mp hn with rfl | hn'
      · cases n with
        | mk t p u fs ch =>
            rw [countPathNode]
            rw [GroupNode.full_path] at hp
            rw [if_pos hp]
            omega
      · have := ih hn'
        omega

/-- `List.modify` at a known position with pointwise guarantees: the proofs
carry over node by node. -/
theorem modify_spec {f : GroupNode → GroupNode} :
    ∀ (pos : Nat) (l : List GroupNode) (n₀ : GroupNode), l.get? pos = some n₀ →
      List.modify f pos l = l.take pos ++ [f n₀] ++ l.drop (pos + 1) := by
  intro pos
  induction pos with
  | zero =>
      intro l n₀ h
      cases l with
      | nil => cases h
      | cons m ms =>
          obtain rfl : m = n₀ := by simpa using h
          simp
  | succ p ih =>
      intro l n₀ h
      cases l with
      | nil => cases h
      | cons m ms =>
          have h' : ms.get? p = some n₀ := by simpa using h
          simp only [List.take_succ_cons, List.drop_succ_cons, List.cons_append]
          rw [← ih ms n₀ h']
          simp

theorem wfList_append_eq (c : List RStr) (l₁ l₂ : List GroupNode) :
    wfList c (l₁ ++ l₂) = (wfList c l₁ && wfList c l₂) := by
  induction l₁ with
  | nil => simp [wfList]
  | cons n ns ih =>
      rw [List.cons_append, wfList, wfList, ih, Bool.and_assoc]

theorem get?_decomp : ∀ (pos : Nat) (l : List GroupNode) (n₀ : GroupNode),
    l.get? pos = some n₀ → l = l.take pos ++ [n₀] ++ l.drop (pos + 1) := by
  intro pos
  induction pos with
  | zero =>
      intro l n₀ h
      cases l with
      | nil => cases h
      | cons m ms =>
          obtain rfl : m = n₀ := by simpa using h
          simp
  | succ p ih =>
      intro l n₀ h
      cases l with
      | nil => cases h
      | cons m ms =>
          have h' : ms.get? p = some n₀ := by simpa using h
          simp only [List.take_succ_cons, List.drop_succ_cons, List.cons_append]
          rw [← ih ms n₀ h']

/-- Unfolding of `nodupRStr` on a cons as a proposition. -/
theorem nodupRStr_cons {x : RStr} {xs : List RStr} (h : nodupRStr (x :: xs) = true) :
    x ∉ xs ∧ nodupRStr xs = true := by
  rw [nodupRStr, Bool.and_eq_true, Bool.not_eq_eq_eq_not, Bool.not_true] at h
  refine ⟨fun hm => ?_, h.2⟩
  have : xs.contains x = true := by simpa using hm
  rw [h.1] at this
  cases this

mutual
/-- A node of a well-formed subtree can only hold the queried full path if
the query's component chain starts with the node's chain. -/
theorem countPathNode_pos : ∀ (q : RStr) (c : List RStr) (n : GroupNode),
    wfNode c n = true → countPathNode q n ≠ 0 →
    ∃ r, splitPath q = c ++ [n.title] ++ r
  | q, c, GroupNode.mk t p u fs ch => by
      intro hwf hcnt
      rw [wfNode, Bool.and_eq_true, Bool.and_eq_true, Bool.and_eq_true] at hwf
      obtain ⟨⟨⟨hfp, hcan⟩, hnd⟩, hch⟩ := hwf
      rw [countPathNode] at hcnt
      rw [GroupNode.title]
      by_cases hpq : p = q
      · refine ⟨[], ?_⟩
        rw [← hpq, beq_iff_eq.mp hfp, List.append_assoc]
        simpa using beq_iff_eq.mp hcan
      · rw [if_neg hpq] at hcnt
        obtain ⟨t', r', ht', hsp⟩ := countPathList_pos q (c ++ [t]) ch hch (by omega)
        refine ⟨t' :: r', ?_⟩
        rw [hsp]
        simp [List.append_assoc]
/-- A well-formed forest can only hold the queried full path if the query's
chain continues with the title of one of its nodes. -/
theorem countPathList_pos : ∀ (q : RStr) (c : List RStr) (l : List GroupNode),
    wfList c l = true → countPathList q l ≠ 0 →
    ∃ t r, t ∈ l.map GroupNode.title ∧ splitPath q = c ++ [t] ++ r
  | q, c, [] => by
      intro _ hcnt
      rw [countPathList] at hcnt
      omega
  | q, c, n :: ns => by
      intro hwf hcnt
      rw [wfList, Bool.and_eq_true] at hwf
      rw [countPathList] at hcnt
      by_cases hn : countPathNode q n = 0
      · obtain ⟨t', r', ht', hsp⟩ := countPathList_pos q c ns hwf.2 (by omega)
        exact ⟨t', r', by simp [ht'], hsp⟩
      · obtain ⟨r, hsp⟩ := countPathNode_pos q c n hwf.1 hn
        exact ⟨n.title, r, by simp, hsp⟩
end

mutual
/-- In a well-formed subtree at most one node carries any given full path. -/
theorem countPathNode_le : ∀ (q : RStr) (c : List RStr) (n : GroupNode),
    wfNode c n = true → countPathNode q n ≤ 1
  | q, c, GroupNode.mk t p u fs ch => by
      intro hwf
      rw [wfNode, Bool.and_eq_true, Bool.and_eq_true, Bool.and_eq_true] at hwf
      obtain ⟨⟨⟨hfp, hcan⟩, hnd⟩, hch⟩ := hwf
      rw [countPathNode]
      by_cases hpq : p = q
      · rw [if_pos hpq]
        have hz : countPathList q ch = 0 := by
          by_contra hnz
          obtain ⟨t', r', ht', hsp⟩ := countPathList_pos q (c ++ [t]) ch hch hnz
          have hq : splitPath q = c ++ [t] := by
            rw [← hpq, beq_iff_eq.mp hfp]
            exact beq_iff_eq.mp hcan
          rw [hq] at hsp
          have := congrArg List.length hsp
          simp at this
        omega
      · rw [if_neg hpq]
        have := countPathList_le q (c ++ [t]) ch hnd hch
        omega
/-- In a well-formed forest with duplicate-free sibling titles, at most one
node carries any given full path. -/
theorem countPathList_le : ∀ (q : RStr) (c : List RStr) (l : List GroupNode),
    nodupRStr (l.map GroupNode.title) = true → wfList c l = true → countPathList q l ≤ 1
  | q, c, [] => by
      intro _ _
      rw [countPathList]
      omega
  | q, c, n :: ns => by
      intro hnd hwf
      rw [List.map_cons] at hnd
      obtain ⟨hni, hnd'⟩ := nodupRStr_cons hnd
      rw [wfList, Bool.and_eq_true] at hwf
      rw [countPathList]
      have h1 := countPathNode_le q c n hwf.1
      have h2 := countPathList_le q c ns hnd' hwf.2
      by_cases hz : countPathNode q n = 0
      · omega
      · by_cases hz' : countPathList q ns = 0
        · omega
        · obtain ⟨r, hsp⟩ := countPathNode_pos q c n hwf.1 hz
          obtain ⟨t', r', ht', hsp'⟩ := countPathList_pos q c ns hwf.2 hz'
          rw [hsp] at hsp'
          have hch2 : c ++ ([n.title] ++ r) = c ++ ([t'] ++ r') := by
            rw [← List.append_assoc, ← List.append_assoc]
            exact hsp'
          have h3 := List.append_cancel_left hch2
          simp only [List.singleton_append] at h3
          injection h3 with h4 h5
          rw [← h4] at ht'
          exact absurd ht' hni
end

theorem take_succ_getD {α : Type} (l : List α) (d : Nat) (e : α) (h : d < l.length) :
    l.take (d + 1) = l.take d ++ [l.getD d e] := by
  rw [List.take_succ]
  congr 1
  rw [List.getElem?_eq_getElem h]
  rw [List.getD_eq_getElem?_getD, List.getElem?_eq_getElem h]
  rfl

theorem nodupRStr_append_singleton {xs : List RStr} {x : RStr}
    (hnd : nodupRStr xs = true) (hx : x ∉ xs) : nodupRStr (xs ++ [x]) = true := by
  induction xs with
  | nil => rfl
  | cons y ys ih =>
      obtain ⟨hy, hnd'⟩ := nodupRStr_cons hnd
      rw [List.cons_append, nodupRStr, Bool.and_eq_true]
      constructor
      · simp only [Bool.not_eq_eq_eq_not, Bool.not_true]
        have : y ∉ ys ++ [x] := by
          intro hmem
          rcases List.mem_append.mp hmem with h1 | h1
          · exact hy h1
          · rw [List.mem_singleton] at h1
            exact hx (h1 ▸ List.mem_cons_self y ys)
        by_contra hcon
        rw [Bool.not_eq_false] at hcon
        exact this (by simpa using hcon)
      · exact ih hnd' (fun hmem => hx (List.mem_cons_of_mem y hmem))

theorem notMem_titles_of_listPosition_none {ct : RStr} {l : List GroupNode}
    (h : listPosition (fun n => n.title == ct) l = none) :
    ct ∉ l.map GroupNode.title := by
  intro hmem
  obtain ⟨n, hn, ht⟩ := List.mem_map.mp hmem
  have := listPosition_eq_none.mp h n hn
  rw [ht] at this
  simp at this

/-- Inserting a path into a well-formed forest keeps it well-formed (full
paths are joins of canonical chains, sibling titles stay duplicate-free) and
afterwards some node carries the inserted full path. -/
theorem insertAux_wf (p : RStr) (feeds : List Feed) :
    ∀ (rem : Nat) (d : Nat) (l : List GroupNode),
      rem + d = (splitPath p).length → d < (splitPath p).length →
      wfList ((splitPath p).take d) l = true →
      nodupRStr (l.map GroupNode.title) = true →
      wfList ((splitPath p).take d) (insertAux (splitPath p) p feeds rem l d) = true ∧
      nodupRStr ((insertAux (splitPath p) p feeds rem l d).map GroupNode.title) = true ∧
      countPathList p (insertAux (splitPath p) p feeds rem l d) ≠ 0 := by
  intro rem
  induction rem with
  | zero =>
      intro d l hrem hd hwf hnd
      omega
  | succ rem ih =>
      intro d l hrem hd hwf hnd
      have hct : (splitPath p).take (d + 1) = (splitPath p).take d ++ [(splitPath p).getD d []] :=
        take_succ_getD _ _ _ hd
      cases hpos : listPosition (fun n => n.title == (splitPath p).getD d []) l with
      | some pos =>
          obtain ⟨n₀, hg, hpt⟩ := listPosition_eq_some hpos
          have hdecomp := get?_decomp pos l n₀ hg
          simp only [insertAux, hpos]
          cases n₀ with
          | mk t q u fs ch =>
              rw [GroupNode.title] at hpt
              have htct : t = (splitPath p).getD d [] := beq_iff_eq.mp hpt
              rw [hdecomp] at hwf hnd
              rw [wfList_append_eq, wfList_append_eq, Bool.and_eq_true, Bool.and_eq_true] at hwf
              obtain ⟨⟨hwtake, hwmid⟩, hwdrop⟩ := hwf
              have hwn : wfNode ((splitPath p).take d) (GroupNode.mk t q u fs ch) = true := by
                rw [wfList, Bool.and_eq_true] at hwmid
                exact hwmid.1
              rw [wfNode, Bool.and_eq_true, Bool.and_eq_true, Bool.and_eq_true] at hwn
              obtain ⟨⟨⟨hfp, hcan⟩, hndch⟩, hwch⟩ := hwn
              have hch1 : (splitPath p).take d ++ [t] = (splitPath p).take (d + 1) := by
                rw [hct, htct]
              by_cases hlast : d = (splitPath p).length - 1
              · rw [if_pos hlast]
                have hd1 : d + 1 = (splitPath p).length := by omega
                have hq : q = p := by
                  have hfp' := beq_iff_eq.mp hfp
                  rw [hch1, hd1, List.take_length] at hfp'
                  rw [hfp', joinPath_splitPath p.length p le_rfl]
                have hres : List.modify
                    (fun n => GroupNode.mk n.title n.full_path n.unread_count
                      (n.feeds ++ feeds) n.children) pos l =
                    l.take pos ++ [GroupNode.mk t q u (fs ++ feeds) ch] ++ l.drop (pos + 1) := by
                  rw [modify_spec pos l (GroupNode.mk t q u fs ch) hg]
                  rfl
                rw [hres]
                refine ⟨?_, ?_, ?_⟩
                · rw [wfList_append_eq, wfList_append_eq, Bool.and_eq_true, Bool.and_eq_true]
                  refine ⟨⟨hwtake, ?_⟩, hwdrop⟩
                  rw [wfList, Bool.and_eq_true]
                  refine ⟨?_, rfl⟩
                  rw [wfNode, Bool.and_eq_true, Bool.and_eq_true, Bool.and_eq_true]
                  exact ⟨⟨⟨hfp, hcan⟩, hndch⟩, hwch⟩
                · simp only [List.map_append, List.map_cons, List.map_nil,
                    GroupNode.title] at hnd ⊢
                  exact hnd
                · rw [countPathList_append, countPathList_append, countPathList, countPathList,
                    countPathNode, if_pos hq]
                  omega
              · rw [if_neg hlast]
                have hwch' : wfList ((splitPath p).take (d + 1)) ch = true := by
                  rw [← hch1]
                  exact hwch
                obtain ⟨ihw, ihn, ihc⟩ := ih (d + 1) ch (by omega) (by omega) hwch' hndch
                have hres : List.modify
                    (fun n => GroupNode.mk n.title n.full_path n.unread_count n.feeds
                      (insertAux (splitPath p) p feeds rem n.children (d + 1))) pos l =
                    l.take pos ++ [GroupNode.mk t q u fs
                      (insertAux (splitPath p) p feeds rem ch (d + 1))] ++ l.drop (pos + 1) := by
                  rw [modify_spec pos l (GroupNode.mk t q u fs ch) hg]
                  rfl
                rw [hres]
                refine ⟨?_, ?_, ?_⟩
                · rw [wfList_append_eq, wfList_append_eq, Bool.and_eq_true, Bool.and_eq_true]
                  refine ⟨⟨hwtake, ?_⟩, hwdrop⟩
                  rw [wfList, Bool.and_eq_true]
                  refine ⟨?_, rfl⟩
                  rw [wfNode, Bool.and_eq_true, Bool.and_eq_true, Bool.and_eq_true]
                  refine ⟨⟨⟨hfp, hcan⟩, ihn⟩, ?_⟩
                  rw [hch1]
                  exact ihw
                · simp only [List.map_append, List.map_cons, List.map_nil,
                    GroupNode.title] at hnd ⊢
                  exact hnd
                · rw [countPathList_append, countPathList_append, countPathList, countPathList,
                    countPathNode]
                  by_cases hqp : q = p
                  · rw [if_pos hqp]
                    omega
                  · rw [if_neg hqp]
                    omega
      | none =>
          simp only [insertAux, hpos]
          have hctmem : (splitPath p).getD d [] ∉ l.map GroupNode.title :=
            notMem_titles_of_listPosition_none hpos
          by_cases hlast : d = (splitPath p).length - 1
          · rw [if_pos hlast]
            have hd1 : d + 1 = (splitPath p).length := by omega
            have hchain : (splitPath p).take d ++ [(splitPath p).getD d []] = splitPath p := by
              rw [← hct, hd1, List.take_length]
            refine ⟨?_, ?_, ?_⟩
            · apply wfList_append hwf
              rw [wfList, Bool.and_eq_true]
              refine ⟨?_, rfl⟩
              rw [wfNode, hchain, joinPath_splitPath p.length p le_rfl]
              simp [nodupRStr, wfList]
            · rw [List.map_append]
              exact nodupRStr_append_singleton hnd (by simpa using hctmem)
            · rw [countPathList_append, countPathList, countPathList, countPathNode, if_pos rfl]
              omega
          · rw [if_neg hlast]
            obtain ⟨ihw, ihn, ihc⟩ := ih (d + 1) [] (by omega) (by omega) rfl rfl
            refine ⟨?_, ?_, ?_⟩
            · apply wfList_append hwf
              rw [wfList, Bool.and_eq_true]
              refine ⟨?_, rfl⟩
              rw [wfNode, Bool.and_eq_true, Bool.and_eq_true, Bool.and_eq_true]
              refine ⟨⟨⟨?_, ?_⟩, ihn⟩, ?_⟩
              · rw [← hct]
                exact beq_self_eq_true _
              · rw [← hct, splitPath_take_canonical p.length p le_rfl d]
                exact beq_self_eq_true _
              · rw [← hct]
                exact ihw
            · rw [List.map_append]
              exact nodupRStr_append_singleton hnd (by simpa using hctmem)
            · rw [countPathList_append, countPathList, countPathList, countPathNode]
              by_cases hqp : List.intercalate pathSep ((splitPath p).take (d + 1)) = p
              · rw [if_pos hqp]
                omega
              · rw [if_neg hqp]
                omega

/-- Inserting a path never removes nodes: the count of any full path can only
grow. -/
theorem insertAux_count_mono (comps : List RStr) (fp : RStr) (fs : List Feed) (q : RStr) :
    ∀ (rem : Nat) (l : List GroupNode) (d : Nat),
      countPathList q l ≤ countPathList q (insertAux comps fp fs rem l d) := by
  intro rem
  induction rem with
  | zero =>
      intro l d
      exact Nat.le_refl _
  | succ rem ih =>
      intro l d
      cases hpos : listPosition (fun n => n.title == comps.getD d []) l with
      | some pos =>
          obtain ⟨n₀, hg, hpt⟩ := listPosition_eq_some hpos
          have hdecomp := get?_decomp pos l n₀ hg
          simp only [insertAux, hpos]
          cases n₀ with
          | mk t q0 u fs0 ch =>
              by_cases hlast : d = comps.length - 1
              · rw [if_pos hlast]
                have hres : List.modify
                    (fun n => GroupNode.mk n.title n.full_path n.unread_count
                      (n.feeds ++ fs) n.children) pos l =
                    l.take pos ++ [GroupNode.mk t q0 u (fs0 ++ fs) ch] ++ l.drop (pos + 1) := by
                  rw [modify_spec pos l (GroupNode.mk t q0 u fs0 ch) hg]
                  rfl
                rw [hres]
                conv_lhs => rw [hdecomp]
                rw [countPathList_append, countPathList_append, countPathList_append,
                  countPathList_append, countPathList, countPathList, countPathList,
                  countPathList, countPathNode, countPathNode]
              · rw [if_neg hlast]
                have hres : List.modify
                    (fun n => GroupNode.mk n.title n.full_path n.unread_count n.feeds
                      (insertAux comps fp fs rem n.children (d + 1))) pos l =
                    l.take pos ++ [GroupNode.mk t q0 u fs0
                      (insertAux comps fp fs rem ch (d + 1))] ++ l.drop (pos + 1) := by
                  rw [modify_spec pos l (GroupNode.mk t q0 u fs0 ch) hg]
                  rfl
                rw [hres]
                conv_lhs => rw [hdecomp]
                rw [countPathList_append, countPathList_append, countPathList_append,
                  countPathList_append, countPathList, countPathList, countPathList,
                  countPathList, countPathNode, countPathNode]
                have := ih ch (d + 1)
                omega
      | none =>
          simp only [insertAux, hpos]
          by_cases hlast : d = comps.length - 1
          · rw [if_pos hlast]
            rw [countPathList_append]
            omega
          · rw [if_neg hlast]
            rw [countPathList_append]
            omega

/-- Recomputing unread counts does not change node titles. -/
theorem updateList_map_title : ∀ (l : List GroupNode),
    (GroupNode.updateList l).map GroupNode.title = l.map GroupNode.title := by
  intro l
  induction l with
  | nil => rfl
  | cons n ns ih =>
      cases n with
      | mk t p u fs ch =>
          rw [GroupNode.updateList, List.map_cons, List.map_cons, ih,
            GroupNode.update_unread_counts, GroupNode.title, GroupNode.title]

mutual
/-- Recomputing unread counts does not change which paths the nodes carry. -/
theorem countPath_update : ∀ (q : RStr) (n : GroupNode),
    countPathNode q (GroupNode.update_unread_counts n) = countPathNode q n
  | q, GroupNode.mk t p u fs ch => by
      rw [GroupNode.update_unread_counts, countPathNode, countPathNode,
        countPath_updateList q ch]
theorem countPath_updateList : ∀ (q : RStr) (l : List GroupNode),
    countPathList q (GroupNode.updateList l) = countPathList q l
  | q, [] => rfl
  | q, n :: ns => by
      rw [GroupNode.updateList, countPathList, countPathList, countPath_update q n,
        countPath_updateList q ns]
end

mutual
/-- Recomputing unread counts preserves structural well-formedness. -/
theorem wf_update : ∀ (c : List RStr) (n : GroupNode),
    wfNode c (GroupNode.update_unread_counts n) = wfNode c n
  | c, GroupNode.mk t p u fs ch => by
      rw [GroupNode.update_unread_counts, wfNode, wfNode, wf_updateList (c ++ [t]) ch,
        updateList_map_title ch]
theorem wf_updateList : ∀ (c : List RStr) (l : List GroupNode),
    wfList c (GroupNode.updateList l) = wfList c l
  | c, [] => rfl
  | c, n :: ns => by
      rw [GroupNode.updateList, wfList, wfList, wf_update c n, wf_updateList c ns]
end

mutual
/-- Well-formedness includes duplicate-free sibling titles at every depth. -/
theorem wf_sibNode : ∀ (c : List RStr) (n : GroupNode), wfNode c n = true →
    sibTitlesNodupNode n = true
  | c, GroupNode.mk t p u fs ch => by
      intro h
      rw [wfNode, Bool.and_eq_true, Bool.and_eq_true, Bool.and_eq_true] at h
      rw [sibTitlesNodupNode, Bool.and_eq_true]
      exact ⟨h.1.2, wf_sibList (c ++ [t]) ch h.2⟩
theorem wf_sibList : ∀ (c : List RStr) (l : List GroupNode), wfList c l = true →
    sibTitlesNodupList l = true
  | c, [] => fun _ => rfl
  | c, n :: ns => by
      intro h
      rw [wfList, Bool.and_eq_true] at h
      rw [sibTitlesNodupList, Bool.and_eq_true]
      exact ⟨wf_sibNode c n h.1, wf_sibList c ns h.2⟩
end

mutual
/-- The calculated unread sum reads only feeds, so recomputation preserves it. -/
theorem calc_update : ∀ (n : GroupNode),
    GroupNode.calculate_unread_count (GroupNode.update_unread_counts n) =
      GroupNode.calculate_unread_count n
  | GroupNode.mk t p u fs ch => by
      rw [GroupNode.update_unread_counts, GroupNode.calculate_unread_count,
        GroupNode.calculate_unread_count, sumCalc_updateList ch]
theorem sumCalc_updateList : ∀ (l : List GroupNode),
    GroupNode.sumCalc (GroupNode.updateList l) = GroupNode.sumCalc l
  | [] => rfl
  | n :: ns => by
      rw [GroupNode.updateList, GroupNode.sumCalc, GroupNode.sumCalc, calc_update n,
        sumCalc_updateList ns]
end

mutual
/-- After `update_unread_counts`, every stored count equals the calculated
subtree sum. -/
theorem unreadOk_update : ∀ (n : GroupNode),
    unreadOkNode (GroupNode.update_unread_counts n) = true
  | GroupNode.mk t p u fs ch => by
      rw [GroupNode.update_unread_counts, unreadOkNode, Bool.and_eq_true]
      constructor
      · rw [beq_iff_eq]
        rw [GroupNode.calculate_unread_count, GroupNode.calculate_unread_count,
          sumCalc_updateList ch]
      · exact unreadOk_updateList ch
theorem unreadOk_updateList : ∀ (l : List GroupNode),
    unreadOkList (GroupNode.updateList l) = true
  | [] => rfl
  | n :: ns => by
      rw [GroupNode.updateList, unreadOkList, Bool.and_eq_true]
      exact ⟨unreadOk_update n, unreadOk_updateList ns⟩
end

/-- The insertion fold of build_group_tree keeps the forest well-formed with
duplicate-free root titles, never loses a path, and ends with every inserted
path present. -/
theorem foldl_insert_wf (feeds : List Feed) :
    ∀ (S : List RStr) (l : List GroupNode),
      wfList [] l = true → nodupRStr (l.map GroupNode.title) = true →
      wfList [] (S.foldl (fun nodes path =>
        insert_into_tree nodes (splitPath path) path (feedsForPath feeds path) 0) l) = true ∧
      nodupRStr ((S.foldl (fun nodes path =>
        insert_into_tree nodes (splitPath path) path (feedsForPath feeds path) 0) l).map
          GroupNode.title) = true ∧
      (∀ q, countPathList q l ≤ countPathList q (S.foldl (fun nodes path =>
        insert_into_tree nodes (splitPath path) path (feedsForPath feeds path) 0) l)) ∧
      (∀ p ∈ S, countPathList p (S.foldl (fun nodes path =>
        insert_into_tree nodes (splitPath path) path (feedsForPath feeds path) 0) l) ≠ 0) := by
  intro S
  induction S with
  | nil =>
      intro l hwf hnd
      exact ⟨hwf, hnd, fun q => Nat.le_refl _, fun p hp => absurd hp (List.not_mem_nil p)⟩
  | cons p ps ih =>
      intro l hwf hnd
      rw [List.foldl_cons]
      have hlen : 0 < (splitPath p).length := List.length_pos.mpr (splitPath_ne_nil p)
      have hins := insertAux_wf p (feedsForPath feeds p) ((splitPath p).length - 0) 0 l
        (by omega) hlen hwf hnd
      have hins' :
          wfList [] (insert_into_tree l (splitPath p) p (feedsForPath feeds p) 0) = true ∧
          nodupRStr ((insert_into_tree l (splitPath p) p
            (feedsForPath feeds p) 0).map GroupNode.title) = true ∧
          countPathList p (insert_into_tree l (splitPath p) p (feedsForPath feeds p) 0) ≠ 0 :=
        hins
      obtain ⟨hw1, hn1, hc1⟩ := hins'
      obtain ⟨ihw, ihn, ihmono, ihall⟩ := ih _ hw1 hn1
      refine ⟨ihw, ihn, ?_, ?_⟩
      · intro q
        have hmono : countPathList q l ≤
            countPathList q (insert_into_tree l (splitPath p) p (feedsForPath feeds p) 0) :=
          insertAux_count_mono (splitPath p) p (feedsForPath feeds p) q
            ((splitPath p).length - 0) l 0
        exact le_trans hmono (ihmono q)
      · intro p' hp'
        rcases List.mem_cons.mp hp' with rfl | hmem
        · have h2 := ihmono p'
          omega
        · exact ihall p' hmem

/-- C1: build_group_tree produces, for every group path collected from the
feed list (the non-empty group titles) or the empty-group list, exactly one
node with that full path; sibling titles are duplicate-free at every depth
(so paths sharing a prefix converge on one node); and after the final
recomputation every node's unread count equals the calculated sum of the
unread counts of the feeds in its subtree. -/
theorem C1_group_tree_nodes :
    ∀ (feeds : List Feed) (empty_groups : List RStr),
      (∀ p, ((¬ p = [] ∧ ∃ f ∈ feeds, f.group_title = p) ∨ p ∈ empty_groups) →
        countPathList p (build_group_tree feeds empty_groups) = 1) ∧
      nodupRStr ((build_group_tree feeds empty_groups).map GroupNode.title) = true ∧
      sibTitlesNodupList (build_group_tree feeds empty_groups) = true ∧
      unreadOkList (build_group_tree feeds empty_groups) = true := by
  intro feeds empty_groups
  have hb : build_group_tree feeds empty_groups =
      if List.insertionSort pathLeP (addEmptyGroups (pathKeys feeds) empty_groups) = [] then []
      else GroupNode.updateList ((List.insertionSort pathLeP (addEmptyGroups (pathKeys feeds)
        empty_groups)).foldl (fun nodes path => insert_into_tree nodes (splitPath path) path
          (feedsForPath feeds path) 0) []) := rfl
  have hmemS : ∀ p, ((¬ p = [] ∧ ∃ f ∈ feeds, f.group_title = p) ∨ p ∈ empty_groups) →
      p ∈ List.insertionSort pathLeP (addEmptyGroups (pathKeys feeds) empty_groups) := by
    intro p hp
    rw [(List.perm_insertionSort pathLeP _).mem_iff, addEmptyGroups_mem]
    rcases hp with h | h
    · left
      rw [pathKeys, pathKeys_foldl_mem]
      exact Or.inr h
    · exact Or.inr h
  by_cases h0 : List.insertionSort pathLeP (addEmptyGroups (pathKeys feeds) empty_groups) = []
  · rw [hb, if_pos h0]
    refine ⟨?_, rfl, rfl, rfl⟩
    intro p hp
    have := hmemS p hp
    rw [h0] at this
    cases this
  · rw [hb, if_neg h0]
    obtain ⟨hw, hn, -, hall⟩ := foldl_insert_wf feeds
      (List.insertionSort pathLeP (addEmptyGroups (pathKeys feeds) empty_groups)) [] rfl rfl
    refine ⟨?_, ?_, ?_, ?_⟩
    · intro p hp
      have h1 := hall p (hmemS p hp)
      have h2 := countPathList_le p [] _ hn hw
      rw [countPath_updateList]
      omega
    · rw [updateList_map_title]
      exact hn
    · exact wf_sibList [] _ (by rw [wf_updateList]; exact hw)
    · exact unreadOk_updateList _

/-- Feeds for the C1 witness: a nested group path and its prefix. -/
def c1feeds : List Feed :=
  [⟨1, ('A' :: pathSep ++ ['B']), "f1".data, "u1".data, none, none, 2⟩,
   ⟨2, ['A'], "f2".data, "u2".data, none, none, 3⟩]

/-- Witness for C1: on a concrete feed list with paths "A > B" and "A" plus
the empty group "C", each collected path has exactly one node, sibling titles
are unique and all unread counts are correct. -/
theorem C1_witness :
    countPathList ('A' :: pathSep ++ ['B']) (build_group_tree c1feeds [['C']]) = 1 ∧
    countPathList ['A'] (build_group_tree c1feeds [['C']]) = 1 ∧
    countPathList ['C'] (build_group_tree c1feeds [['C']]) = 1 ∧
    sibTitlesNodupList (build_group_tree c1feeds [['C']]) = true ∧
    unreadOkList (build_group_tree c1feeds [['C']]) = true :=
  ⟨(C1_group_tree_nodes c1feeds [['C']]).1 ('A' :: pathSep ++ ['B']) (by decide),
   (C1_group_tree_nodes c1feeds [['C']]).1 ['A'] (by decide),
   (C1_group_tree_nodes c1feeds [['C']]).1 ['C'] (by decide),
   (C1_group_tree_nodes c1feeds [['C']]).2.2.1,
   (C1_group_tree_nodes c1feeds [['C']]).2.2.2⟩
